import Mathlib

/-!
Verification of the Ulam-spiral structural-detection engine.

The development embeds the run detector (`find_runs_1d`), the diagonal and
horizontal/vertical segment detectors, the goodness score, and the spiral
fill routine, and proves the behavioural properties stated about them.

Conventions of the embedding:
* 1-D sequences are `List Int` (numpy 1-D arrays of machine integers).
* `np.convolve(b, ones(m), mode="same")` returns a list of length
  `max n m` whose entry `p` is the full-convolution value at index
  `p + (min n m - 1) / 2` (numpy trims `min n m - 1` entries from the
  full convolution, `(min n m - 1) / 2` of them on the left).
* The run extraction mirrors the `np.r_[0, smoothed, 0]` / `np.diff` /
  `np.where` pipeline: a start is an index where the padded sequence
  steps by `+1`, an end one where it steps by `-1`, and the two index
  lists are zipped.
* 2-D grids are a `Grid` structure (row count, column count, cell values);
  masks are materialised as `List (List Bool)` built by replaying the
  sequence of writes the imperative loops perform.
-/

namespace Ulam

/-- `(array > 0).astype(int)`: binarisation of the input sequence. -/
def binarize (a : List Int) : List Int :=
  a.map fun x => if 0 < x then 1 else 0

/-- Full convolution of `b` with an all-ones kernel of length `m`,
evaluated at full-convolution index `i`: the sum of the entries `b j`
with `i - m + 1 ≤ j ≤ i`. -/
def windowSum (b : List Int) (m : Nat) (i : Nat) : Int :=
  (((List.range b.length).map
    fun j => if j ≤ i ∧ i < j + m then b.getD j 0 else 0)).sum

/-- `np.convolve(b, np.ones(m), mode="same")`: length `max b.length m`,
entry `p` is the full convolution at index `p + (min b.length m - 1) / 2`. -/
def convSame (b : List Int) (m : Nat) : List Int :=
  (List.range (max b.length m)).map
    fun p => windowSum b m (p + (min b.length m - 1) / 2)

/-- The smoothed 0/1 sequence used by `find_runs_1d`: for positive
`gap_tolerance` the convolution with a ones kernel of size
`gap_tolerance + 1` followed by `(conv > 0)`, otherwise the binarised
input unchanged. -/
def smoothedSeq (a : List Int) (gap_tolerance : Int) : List Int :=
  let b := binarize a
  if 0 < gap_tolerance then
    (convSame b (gap_tolerance.toNat + 1)).map fun x => if 0 < x then 1 else 0
  else b

/-- Indexing into `np.r_[prev, l, 0]`-style padding: index `0` reads the
virtual left element `prev`, index `j + 1` reads `l.getD j 0` (so indices
past the end read the virtual right padding `0`). -/
def pget (prev : Int) (l : List Int) (j : Nat) : Int :=
  if j = 0 then prev else l.getD (j - 1) 0

/-- Indices `i` of the difference sequence of the padded list where the
step equals `c`; with `c = 1` these are the run starts, with `c = -1` the
(exclusive) run ends, exactly as `np.where(np.diff(padded) == c)`. -/
def transAt (prev : Int) (l : List Int) (c : Int) : List Nat :=
  (List.range (l.length + 1)).filter
    fun i => pget prev l (i + 1) - pget prev l i = c

/-- `find_runs_1d` from `goodness.py`: binarise, return `[]` for an empty
array, smooth when `gap_tolerance > 0`, then zip the `+1` transitions
with the `-1` transitions of the zero-padded smoothed sequence. -/
def find_runs_1d (a : List Int) (gap_tolerance : Int) : List (Nat × Nat) :=
  if a.length = 0 then []
  else
    let sm := smoothedSeq a gap_tolerance
    (transAt 0 sm 1).zip (transAt 0 sm (-1))

example : find_runs_1d [1, 0, 1, 0, 0, 1] 1 = [(0, 4), (5, 6)] := by decide
example : find_runs_1d [1, 0, 1] 0 = [(0, 1), (2, 3)] := by decide
example : find_runs_1d [] 1 = [] := by decide
example : find_runs_1d [1] 2 = [(0, 3)] := by decide
example : find_runs_1d [1, 0, 0] 1 = [(0, 2)] := by decide
example : find_runs_1d [0, 0, 1] 1 = [(2, 3)] := by decide

/-- Reference left-to-right scanner for maximal stretches of positive
entries: the second argument records the start of the currently open
run, the third the absolute index of the head of the list. -/
def runsAcc : List Int → Option Nat → Nat → List (Nat × Nat)
  | [], none, _ => []
  | [], some s, i => [(s, i)]
  | x :: rest, none, i =>
      if 0 < x then runsAcc rest (some i) (i + 1) else runsAcc rest none (i + 1)
  | x :: rest, some s, i =>
      if 0 < x then runsAcc rest (some s) (i + 1)
      else (s, i) :: runsAcc rest none (i + 1)

/-- Shift every run of a run list by `d` positions. -/
def shiftRuns (d : Nat) (rs : List (Nat × Nat)) : List (Nat × Nat) :=
  rs.map fun r => (r.1 + d, r.2 + d)

theorem pget_cons_succ (prev x : Int) (rest : List Int) (j : Nat) :
    pget prev (x :: rest) (j + 1) = pget x rest j := by
  cases j with
  | zero => simp [pget]
  | succ j => simp [pget]

theorem transAt_cons (prev x : Int) (rest : List Int) (c : Int) :
    transAt prev (x :: rest) c =
      (if x - prev = c then [0] else []) ++ (transAt x rest c).map (· + 1) := by
  unfold transAt
  rw [List.length_cons, List.range_succ_eq_map, List.filter_cons, List.filter_map]
  have h2 : List.filter
      ((fun i => decide (pget prev (x :: rest) (i + 1) - pget prev (x :: rest) i = c))
        ∘ Nat.succ)
      (List.range (rest.length + 1)) =
      List.filter (fun i => decide (pget x rest (i + 1) - pget x rest i = c))
      (List.range (rest.length + 1)) := by
    apply List.filter_congr
    intro i _
    simp only [Function.comp_apply, decide_eq_decide, Nat.succ_eq_add_one]
    rw [pget_cons_succ, pget_cons_succ]
  rw [h2]
  by_cases hc : x - prev = c
  · rw [if_pos (by simp [pget, hc]), if_pos hc]
    rfl
  · rw [if_neg (by simp [pget, hc]), if_neg hc]
    rfl

theorem shiftRuns_shift (i : Nat) (z : List (Nat × Nat)) :
    shiftRuns i (z.map (Prod.map (· + 1) (· + 1))) = shiftRuns (i + 1) z := by
  unfold shiftRuns
  rw [List.map_map]
  apply List.map_congr_left
  intro r _
  simp [Prod.map]
  omega

theorem shiftRuns_cons (d : Nat) (a : Nat × Nat) (l : List (Nat × Nat)) :
    shiftRuns d (a :: l) = (a.1 + d, a.2 + d) :: shiftRuns d l := rfl

/-- The zipped transition lists compute exactly what the reference
scanner computes: closed-state version paired with the open-state
version, proven by a joint induction. -/
theorem runsAcc_eq_trans : ∀ (l : List Int), (∀ x ∈ l, x = 0 ∨ x = 1) →
    (∀ i, runsAcc l none i =
        shiftRuns i ((transAt 0 l 1).zip (transAt 0 l (-1)))) ∧
    (∀ s i, ∃ e es, transAt 1 l (-1) = e :: es ∧
        runsAcc l (some s) i =
          (s, i + e) :: shiftRuns i ((transAt 1 l 1).zip es)) := by
  intro l
  induction l with
  | nil =>
    intro _
    constructor
    · intro i
      have hs : transAt 0 ([] : List Int) 1 = [] := by decide
      simp [runsAcc, hs, shiftRuns]
    · intro s i
      refine ⟨0, [], by decide, ?_⟩
      simp [runsAcc, shiftRuns]
  | cons x rest ih =>
    intro h01
    obtain ⟨ihC, ihO⟩ := ih fun y hy => h01 y (List.mem_cons_of_mem _ hy)
    rcases h01 x (List.mem_cons_self x rest) with hx | hx <;> subst hx
    · -- head is 0
      constructor
      · intro i
        have hL : runsAcc (0 :: rest) none i = runsAcc rest none (i + 1) := by
          simp [runsAcc]
        rw [hL, ihC (i + 1), transAt_cons, transAt_cons]
        simp only [sub_zero, show ¬((0 : Int) = 1) by decide,
          show ¬((0 : Int) = -1) by decide, if_false, List.nil_append]
        rw [List.zip_map, shiftRuns_shift]
      · intro s i
        refine ⟨0, (transAt 0 rest (-1)).map (· + 1), ?_, ?_⟩
        · rw [transAt_cons]
          norm_num
        · have hL : runsAcc (0 :: rest) (some s) i =
              (s, i) :: runsAcc rest none (i + 1) := by
            simp [runsAcc]
          rw [hL, ihC (i + 1), transAt_cons]
          simp only [show ¬((0 : Int) - 1 = 1) by decide, if_false,
            List.nil_append]
          rw [List.zip_map, shiftRuns_shift]
          simp
    · -- head is 1
      constructor
      · intro i
        have hL : runsAcc (1 :: rest) none i = runsAcc rest (some i) (i + 1) := by
          simp [runsAcc]
        obtain ⟨e, es, hE, hR⟩ := ihO i (i + 1)
        rw [hL, hR, transAt_cons, transAt_cons, hE]
        simp only [sub_zero, show ((1 : Int) = 1) = True by simp, if_true,
          show ¬((1 : Int) = -1) by decide, if_false, List.nil_append,
          List.map_cons, List.singleton_append, List.zip_cons_cons]
        rw [shiftRuns_cons, List.zip_map, shiftRuns_shift]
        congr 2 <;> simp <;> omega
      · intro s i
        obtain ⟨e, es, hE, hR⟩ := ihO s (i + 1)
        refine ⟨e + 1, es.map (· + 1), ?_, ?_⟩
        · rw [transAt_cons, hE]
          norm_num
        · have hL : runsAcc (1 :: rest) (some s) i = runsAcc rest (some s) (i + 1) := by
            simp [runsAcc]
          rw [hL, hR, transAt_cons]
          simp only [show ¬((1 : Int) - 1 = 1) by decide, if_false,
            List.nil_append]
          rw [List.zip_map, shiftRuns_shift]
          congr 2
          omega

/-- Entries of the smoothed sequence are always 0 or 1. -/
theorem smoothedSeq_01 (a : List Int) (g : Int) :
    ∀ x ∈ smoothedSeq a g, x = 0 ∨ x = 1 := by
  intro x hx
  unfold smoothedSeq at hx
  by_cases hg : 0 < g
  · rw [if_pos hg] at hx
    obtain ⟨y, _, hy⟩ := List.mem_map.mp hx
    split at hy <;> omega
  · rw [if_neg hg] at hx
    obtain ⟨y, _, hy⟩ := List.mem_map.mp hx
    split at hy <;> omega

theorem runsAcc_of_nonpos (l : List Int) (h : ∀ x ∈ l, ¬ (0 < x)) :
    ∀ i, runsAcc l none i = [] := by
  induction l with
  | nil => intro i; rfl
  | cons x rest ih =>
    intro i
    have hx : ¬ (0 < x) := h x (List.mem_cons_self x rest)
    simp only [runsAcc, if_neg hx]
    exact ih (fun y hy => h y (List.mem_cons_of_mem _ hy)) (i + 1)

theorem shiftRuns_zero (z : List (Nat × Nat)) : shiftRuns 0 z = z := by
  unfold shiftRuns
  simp

/-- `find_runs_1d` agrees with the reference scanner applied to the
smoothed sequence. -/
theorem find_runs_eq_runsAcc (a : List Int) (g : Int) :
    find_runs_1d a g = runsAcc (smoothedSeq a g) none 0 := by
  by_cases h : a.length = 0
  · have ha : a = [] := List.length_eq_zero.mp h
    subst ha
    rw [find_runs_1d, if_pos h]
    have hz : ∀ x ∈ smoothedSeq [] g, ¬ (0 < x) := by
      intro x hx
      unfold smoothedSeq binarize at hx
      by_cases hg : 0 < g
      · rw [if_pos hg] at hx
        simp only [List.map_nil] at hx
        obtain ⟨y, hy, hxy⟩ := List.mem_map.mp hx
        have : y = 0 := by
          unfold convSame at hy
          obtain ⟨p, _, hp⟩ := List.mem_map.mp hy
          rw [← hp]
          unfold windowSum
          simp
        subst this
        simp at hxy
        omega
      · rw [if_neg hg] at hx
        simp at hx
    rw [runsAcc_of_nonpos _ hz 0]
  · rw [find_runs_1d, if_neg h]
    obtain ⟨hC, _⟩ := runsAcc_eq_trans (smoothedSeq a g) (smoothedSeq_01 a g)
    rw [hC 0, shiftRuns_zero]

/-- Position `i` of the sequence is "on" (positive; out-of-range reads
the default `0`, hence "off"). -/
def On (l : List Int) (i : Nat) : Prop := 0 < l.getD i 0

/-- Length of the leading stretch of "on" entries. -/
def leadOn : List Int → Nat
  | [] => 0
  | x :: rest => if 0 < x then leadOn rest + 1 else 0

/-- `[s, e)` is a maximal contiguous stretch of "on" positions: nonempty,
all positions inside are on, the position after it is off (or past the
end), and the position before it is off (or the stretch starts at 0). -/
def maxStretch (l : List Int) (s e : Nat) : Prop :=
  s < e ∧ (∀ i, s ≤ i → i < e → On l i) ∧ ¬ On l e ∧ (s = 0 ∨ ¬ On l (s - 1))

theorem On_nil (i : Nat) : ¬ On [] i := by simp [On]

theorem On_cons_zero (x : Int) (rest : List Int) : On (x :: rest) 0 ↔ 0 < x := by
  simp [On]

theorem On_cons_succ (x : Int) (rest : List Int) (i : Nat) :
    On (x :: rest) (i + 1) ↔ On rest i := by
  simp [On]

theorem leadOn_on : ∀ (l : List Int) (i : Nat), i < leadOn l → On l i := by
  intro l
  induction l with
  | nil => intro i h; simp [leadOn] at h
  | cons x rest ih =>
    intro i h
    by_cases hx : 0 < x
    · cases i with
      | zero => exact (On_cons_zero x rest).mpr hx
      | succ i =>
        rw [On_cons_succ]
        apply ih
        simpa [leadOn, hx] using h
    · simp [leadOn, hx] at h

theorem leadOn_off : ∀ (l : List Int), ¬ On l (leadOn l) := by
  intro l
  induction l with
  | nil => exact On_nil _
  | cons x rest ih =>
    by_cases hx : 0 < x
    · simpa [leadOn, hx, On_cons_succ] using ih
    · simpa [leadOn, hx, On_cons_zero] using hx

theorem maxStretch_nil (a b : Nat) : ¬ maxStretch [] a b := by
  rintro ⟨h1, h2, -, -⟩
  exact On_nil a (h2 a le_rfl h1)

/-- Shifting a maximal stretch across a cons cell, valid whenever the
stretch does not abut a positive head. -/
theorem maxStretch_cons_succ (x : Int) (rest : List Int) (p q : Nat)
    (hx : 1 ≤ p ∨ ¬ 0 < x) :
    maxStretch (x :: rest) (p + 1) (q + 1) ↔ maxStretch rest p q := by
  unfold maxStretch
  constructor
  · rintro ⟨h1, h2, h3, h4⟩
    refine ⟨by omega, ?_, ?_, ?_⟩
    · intro i hi1 hi2
      have := h2 (i + 1) (by omega) (by omega)
      rwa [On_cons_succ] at this
    · rwa [On_cons_succ] at h3
    · rcases h4 with h4 | h4
      · omega
      · rcases Nat.eq_zero_or_pos p with hp | hp
        · exact Or.inl hp
        · right
          have hpe : p + 1 - 1 = (p - 1) + 1 := by omega
          rw [hpe, On_cons_succ] at h4
          exact h4
  · rintro ⟨h1, h2, h3, h4⟩
    refine ⟨by omega, ?_, ?_, ?_⟩
    · intro i hi1 hi2
      obtain ⟨j, rfl⟩ : ∃ j, i = j + 1 := ⟨i - 1, by omega⟩
      rw [On_cons_succ]
      exact h2 j (by omega) (by omega)
    · rwa [On_cons_succ]
    · right
      rcases h4 with h4 | h4
      · subst h4
        rcases hx with hx | hx
        · omega
        · simpa [On_cons_zero] using hx
      · have hp : 1 ≤ p := by
          rcases hx with h | h
          · exact h
          · rcases Nat.eq_zero_or_pos p with hp | hp
            · subst hp
              exact absurd (h2 0 le_rfl h1) (by simpa using h4)
            · exact hp
        have hpe : p + 1 - 1 = (p - 1) + 1 := by omega
        rw [hpe, On_cons_succ]
        exact h4

/-- A maximal stretch that does not start at the very beginning starts
strictly after the leading on-stretch. -/
theorem maxStretch_pos_gt_leadOn (l : List Int) (p q : Nat)
    (h : maxStretch l p q) (hp : 1 ≤ p) : leadOn l < p := by
  obtain ⟨-, -, -, h4⟩ := h
  rcases h4 with h4 | h4
  · omega
  · by_contra hle
    exact h4 (leadOn_on l (p - 1) (by omega))

/-- The stretch starting at 0 is exactly the leading on-stretch. -/
theorem maxStretch_zero_iff (l : List Int) (q : Nat) :
    maxStretch l 0 q ↔ (0 < leadOn l ∧ q = leadOn l) := by
  constructor
  · rintro ⟨h1, h2, h3, -⟩
    have hq : q = leadOn l := by
      by_contra hne
      rcases Nat.lt_or_ge q (leadOn l) with h | h
      · exact h3 (leadOn_on l q h)
      · have : leadOn l < q := by omega
        exact leadOn_off l (h2 (leadOn l) (Nat.zero_le _) this)
    exact ⟨by omega, hq⟩
  · rintro ⟨h1, rfl⟩
    exact ⟨h1, fun i _ hi => leadOn_on l i hi, leadOn_off l, Or.inl rfl⟩

/-- Membership characterisation of the reference scanner: the closed
state yields exactly the maximal stretches (shifted by the base index),
the open state additionally reports the pending run. -/
theorem runsAcc_mem : ∀ (l : List Int),
    (∀ i p q, ((p, q) ∈ runsAcc l none i ↔
        ∃ a b, p = i + a ∧ q = i + b ∧ maxStretch l a b)) ∧
    (∀ s i p q, ((p, q) ∈ runsAcc l (some s) i ↔
        ((p = s ∧ q = i + leadOn l) ∨
         ∃ a b, p = i + a ∧ q = i + b ∧ maxStretch l a b ∧ leadOn l < a))) := by
  intro l
  induction l with
  | nil =>
    constructor
    · intro i p q
      simp only [runsAcc, List.not_mem_nil, false_iff]
      rintro ⟨a, b, -, -, hab⟩
      exact maxStretch_nil a b hab
    · intro s i p q
      simp only [runsAcc, List.mem_singleton, Prod.mk.injEq, leadOn]
      constructor
      · rintro ⟨rfl, rfl⟩
        exact Or.inl ⟨rfl, by omega⟩
      · rintro (⟨rfl, rfl⟩ | ⟨a, b, -, -, hab, -⟩)
        · exact ⟨rfl, by omega⟩
        · exact absurd hab (maxStretch_nil a b)
  | cons x rest ih =>
    obtain ⟨ihC, ihO⟩ := ih
    by_cases hx : 0 < x
    · have hlead : leadOn (x :: rest) = leadOn rest + 1 := by simp [leadOn, hx]
      constructor
      · intro i p q
        have hL : runsAcc (x :: rest) none i = runsAcc rest (some i) (i + 1) := by
          simp [runsAcc, hx]
        rw [hL, ihO i (i + 1) p q]
        constructor
        · rintro (⟨rfl, rfl⟩ | ⟨a, b, rfl, rfl, hab, hlt⟩)
          · refine ⟨0, leadOn rest + 1, by omega, by omega, ?_⟩
            rw [maxStretch_zero_iff, hlead]
            omega
          · have ha : 1 ≤ a := by omega
            refine ⟨a + 1, b + 1, by omega, by omega, ?_⟩
            exact (maxStretch_cons_succ x rest a b (Or.inl ha)).mpr hab
        · rintro ⟨a, b, rfl, rfl, hab⟩
          rcases Nat.eq_zero_or_pos a with ha | ha
          · subst ha
            left
            rw [maxStretch_zero_iff, hlead] at hab
            exact ⟨by omega, by omega⟩
          · right
            have ha2 : 2 ≤ a := by
              rcases hab.2.2.2 with h0 | hoff
              · omega
              · by_contra hlt2
                have haeq : a = 1 := by omega
                rw [haeq] at hoff
                exact hoff ((On_cons_zero x rest).mpr hx)
            obtain ⟨a, rfl⟩ : ∃ j, a = j + 1 := ⟨a - 1, by omega⟩
            obtain ⟨b, rfl⟩ : ∃ j, b = j + 1 := ⟨b - 1, by have hb := hab.1; omega⟩
            have hab2 : maxStretch rest a b :=
              (maxStretch_cons_succ x rest a b (Or.inl (by omega))).mp hab
            refine ⟨a, b, by omega, by omega, hab2, ?_⟩
            exact maxStretch_pos_gt_leadOn rest a b hab2 (by omega)
      · intro s i p q
        have hL : runsAcc (x :: rest) (some s) i = runsAcc rest (some s) (i + 1) := by
          simp [runsAcc, hx]
        rw [hL, ihO s (i + 1) p q, hlead]
        constructor
        · rintro (⟨rfl, rfl⟩ | ⟨a, b, rfl, rfl, hab, hlt⟩)
          · exact Or.inl ⟨rfl, by omega⟩
          · right
            refine ⟨a + 1, b + 1, by omega, by omega, ?_, by omega⟩
            exact (maxStretch_cons_succ x rest a b (Or.inl (by omega))).mpr hab
        · rintro (⟨rfl, rfl⟩ | ⟨a, b, rfl, rfl, hab, hlt⟩)
          · exact Or.inl ⟨rfl, by omega⟩
          · right
            obtain ⟨a, rfl⟩ : ∃ j, a = j + 1 := ⟨a - 1, by omega⟩
            obtain ⟨b, rfl⟩ : ∃ j, b = j + 1 := ⟨b - 1, by have hb := hab.1; omega⟩
            have hab2 : maxStretch rest a b :=
              (maxStretch_cons_succ x rest a b (Or.inl (by omega))).mp hab
            exact ⟨a, b, by omega, by omega, hab2, by omega⟩
    · have hlead : leadOn (x :: rest) = 0 := by simp [leadOn, hx]
      have hA0 : ∀ b : Nat, ¬ maxStretch (x :: rest) 0 b := by
        intro b hab
        exact hx ((On_cons_zero x rest).mp (hab.2.1 0 le_rfl hab.1))
      constructor
      · intro i p q
        have hL : runsAcc (x :: rest) none i = runsAcc rest none (i + 1) := by
          simp [runsAcc, hx]
        rw [hL, ihC (i + 1) p q]
        constructor
        · rintro ⟨a, b, rfl, rfl, hab⟩
          refine ⟨a + 1, b + 1, by omega, by omega, ?_⟩
          exact (maxStretch_cons_succ x rest a b (Or.inr hx)).mpr hab
        · rintro ⟨a, b, rfl, rfl, hab⟩
          have ha : 1 ≤ a := by
            rcases Nat.eq_zero_or_pos a with h0 | h0
            · subst h0; exact absurd hab (hA0 b)
            · exact h0
          obtain ⟨a, rfl⟩ : ∃ j, a = j + 1 := ⟨a - 1, by omega⟩
          obtain ⟨b, rfl⟩ : ∃ j, b = j + 1 := ⟨b - 1, by have hb := hab.1; omega⟩
          exact ⟨a, b, by omega, by omega,
            (maxStretch_cons_succ x rest a b (Or.inr hx)).mp hab⟩
      · intro s i p q
        have hL : runsAcc (x :: rest) (some s) i =
            (s, i) :: runsAcc rest none (i + 1) := by
          simp [runsAcc, hx]
        rw [hL, List.mem_cons, ihC (i + 1) p q, hlead]
        constructor
        · rintro (hpq | ⟨a, b, rfl, rfl, hab⟩)
          · rw [Prod.mk.injEq] at hpq
            exact Or.inl ⟨hpq.1, by omega⟩
          · right
            refine ⟨a + 1, b + 1, by omega, by omega, ?_, by omega⟩
            exact (maxStretch_cons_succ x rest a b (Or.inr hx)).mpr hab
        · rintro (⟨rfl, rfl⟩ | ⟨a, b, rfl, rfl, hab, hlt⟩)
          · exact Or.inl (by rw [Prod.mk.injEq]; exact ⟨rfl, by omega⟩)
          · right
            obtain ⟨a, rfl⟩ : ∃ j, a = j + 1 := ⟨a - 1, by omega⟩
            obtain ⟨b, rfl⟩ : ∃ j, b = j + 1 := ⟨b - 1, by have hb := hab.1; omega⟩
            exact ⟨a, b, by omega, by omega,
              (maxStretch_cons_succ x rest a b (Or.inr hx)).mp hab⟩

theorem smoothedSeq_zero (a : List Int) : smoothedSeq a 0 = binarize a := by
  simp [smoothedSeq]

theorem On_binarize : ∀ (a : List Int) (i : Nat), On (binarize a) i ↔ On a i := by
  intro a
  induction a with
  | nil => intro i; simp [binarize]
  | cons x rest ih =>
    intro i
    cases i with
    | zero =>
      simp only [binarize, List.map_cons, On, List.getD_cons_zero]
      split <;> rename_i h <;> omega
    | succ i =>
      have h1 : binarize (x :: rest) = (if 0 < x then 1 else 0) :: binarize rest := rfl
      rw [h1, On_cons_succ, On_cons_succ]
      exact ih i

theorem maxStretch_iff_of_On (l l2 : List Int) (h : ∀ i, On l i ↔ On l2 i)
    (s e : Nat) : maxStretch l s e ↔ maxStretch l2 s e := by
  unfold maxStretch
  constructor
  · rintro ⟨h1, h2, h3, h4⟩
    refine ⟨h1, fun i hi1 hi2 => (h i).mp (h2 i hi1 hi2), fun hc => h3 ((h e).mpr hc), ?_⟩
    rcases h4 with h4 | h4
    · exact Or.inl h4
    · exact Or.inr fun hc => h4 ((h (s - 1)).mpr hc)
  · rintro ⟨h1, h2, h3, h4⟩
    refine ⟨h1, fun i hi1 hi2 => (h i).mpr (h2 i hi1 hi2), fun hc => h3 ((h e).mp hc), ?_⟩
    rcases h4 with h4 | h4
    · exact Or.inl h4
    · exact Or.inr fun hc => h4 ((h (s - 1)).mp hc)

/-- `(p, q)` is reported by `find_runs_1d` exactly when it is a maximal
stretch of the smoothed sequence. -/
theorem find_runs_1d_mem (a : List Int) (g : Int) (p q : Nat) :
    ((p, q) ∈ find_runs_1d a g ↔ maxStretch (smoothedSeq a g) p q) := by
  rw [find_runs_eq_runsAcc, (runsAcc_mem (smoothedSeq a g)).1 0 p q]
  constructor
  · rintro ⟨u, v, rfl, rfl, h⟩
    simpa using h
  · intro h
    exact ⟨p, q, by omega, by omega, h⟩

/-- The reference scanner produces nonempty runs whose base respects the
starting index, pairwise ordered left to right. -/
theorem runsAcc_sorted : ∀ (l : List Int),
    (∀ i, (∀ r ∈ runsAcc l none i, i ≤ r.1 ∧ r.1 < r.2) ∧
        List.Pairwise (fun r t => r.2 ≤ t.1) (runsAcc l none i)) ∧
    (∀ s i, s < i → (∀ r ∈ runsAcc l (some s) i, s ≤ r.1 ∧ r.1 < r.2) ∧
        List.Pairwise (fun r t => r.2 ≤ t.1) (runsAcc l (some s) i)) := by
  intro l
  induction l with
  | nil =>
    constructor
    · intro i
      constructor
      · intro r hr
        simp [runsAcc] at hr
      · simp [runsAcc]
    · intro s i hsi
      constructor
      · intro r hr
        simp only [runsAcc, List.mem_singleton] at hr
        subst hr
        exact ⟨le_rfl, hsi⟩
      · simp [runsAcc]
  | cons x rest ih =>
    obtain ⟨ihC, ihO⟩ := ih
    by_cases hx : 0 < x
    · constructor
      · intro i
        have hL : runsAcc (x :: rest) none i = runsAcc rest (some i) (i + 1) := by
          simp [runsAcc, hx]
        rw [hL]
        exact ihO i (i + 1) (by omega)
      · intro s i hsi
        have hL : runsAcc (x :: rest) (some s) i = runsAcc rest (some s) (i + 1) := by
          simp [runsAcc, hx]
        rw [hL]
        exact ihO s (i + 1) (by omega)
    · constructor
      · intro i
        have hL : runsAcc (x :: rest) none i = runsAcc rest none (i + 1) := by
          simp [runsAcc, hx]
        rw [hL]
        obtain ⟨hmem, hpw⟩ := ihC (i + 1)
        refine ⟨fun r hr => ?_, hpw⟩
        obtain ⟨hm1, hm2⟩ := hmem r hr
        exact ⟨by omega, hm2⟩
      · intro s i hsi
        have hL : runsAcc (x :: rest) (some s) i =
            (s, i) :: runsAcc rest none (i + 1) := by
          simp [runsAcc, hx]
        rw [hL]
        obtain ⟨hmem, hpw⟩ := ihC (i + 1)
        constructor
        · intro r hr
          rcases List.mem_cons.mp hr with rfl | hr
          · exact ⟨le_rfl, hsi⟩
          · obtain ⟨hm1, hm2⟩ := hmem r hr
            exact ⟨by omega, hm2⟩
        · refine List.Pairwise.cons ?_ hpw
          intro t ht
          have hm1 := (hmem t ht).1
          show i ≤ t.1
          omega

/-- C5: with `gap_tolerance = 0` no smoothing is applied and
`find_runs_1d` returns exactly the maximal contiguous stretches of
positive values as half-open `[start, end)` intervals, in ascending
start order; `[1,0,1]` yields exactly `[0,1)` and `[2,3)`, and the empty
sequence yields the empty result. -/
theorem find_runs_gap0_exact (a : List Int) :
    (∀ p q, ((p, q) ∈ find_runs_1d a 0 ↔ maxStretch a p q)) ∧
    List.Pairwise (fun r t : Nat × Nat => r.1 < t.1) (find_runs_1d a 0) ∧
    find_runs_1d [1, 0, 1] 0 = [(0, 1), (2, 3)] ∧
    find_runs_1d ([] : List Int) 0 = [] := by
  refine ⟨?_, ?_, by decide, by decide⟩
  · intro p q
    rw [find_runs_1d_mem]
    apply maxStretch_iff_of_On
    intro i
    rw [smoothedSeq_zero]
    exact On_binarize a i
  · rw [find_runs_eq_runsAcc]
    obtain ⟨hmemC, hpw⟩ := (runsAcc_sorted (smoothedSeq a 0)).1 0
    refine List.Pairwise.imp_of_mem ?_ hpw
    intro r t hr ht hrt
    have h1 := (hmemC r hr).2
    omega

/-- C4: with `gap_tolerance = 1` the one-zero gap in `[1,0,1,0,0,1]` is
bridged into a single run `[0,4)` (covering indices 0–3), the two-zero
gap is not bridged, and index 5 is reported as the separate single-cell
run `[5,6)`. -/
theorem find_runs_single_gap_fixture :
    find_runs_1d [1, 0, 1, 0, 0, 1] 1 = [(0, 4), (5, 6)] := by decide

theorem binarize_length (a : List Int) : (binarize a).length = a.length :=
  List.length_map a _

theorem binarize_getD : ∀ (a : List Int) (j : Nat),
    (binarize a).getD j 0 = if j < a.length ∧ 0 < a.getD j 0 then 1 else 0 := by
  intro a
  induction a with
  | nil => intro j; simp [binarize]
  | cons x rest ih =>
    intro j
    cases j with
    | zero => by_cases hx : 0 < x <;> simp [binarize, hx]
    | succ j =>
      have h1 : binarize (x :: rest) = (if 0 < x then 1 else 0) :: binarize rest := rfl
      rw [h1, List.getD_cons_succ, ih j]
      have h2 : (x :: rest).getD (j + 1) 0 = rest.getD j 0 := List.getD_cons_succ
      rw [List.length_cons]
      by_cases hc : j < rest.length ∧ 0 < rest.getD j 0
      · rw [if_pos hc, if_pos ⟨by omega, by rw [h2]; exact hc.2⟩]
      · rw [if_neg hc, if_neg ?_]
        rw [h2]
        omega

theorem list_sum_pos_iff (l : List Int) (h : ∀ x ∈ l, 0 ≤ x) :
    0 < l.sum ↔ ∃ x ∈ l, 0 < x := by
  induction l with
  | nil => simp
  | cons x rest ih =>
    rw [List.sum_cons]
    have hx := h x (List.mem_cons_self x rest)
    have hrest := ih fun y hy => h y (List.mem_cons_of_mem _ hy)
    have hsum : 0 ≤ rest.sum :=
      List.sum_nonneg fun y hy => h y (List.mem_cons_of_mem _ hy)
    constructor
    · intro hpos
      by_cases hxp : 0 < x
      · exact ⟨x, List.mem_cons_self x rest, hxp⟩
      · have h2 : 0 < rest.sum := by omega
        obtain ⟨y, hy, hyp⟩ := hrest.mp h2
        exact ⟨y, List.mem_cons_of_mem _ hy, hyp⟩
    · rintro ⟨y, hy, hyp⟩
      rcases List.mem_cons.mp hy with rfl | hy2
      · omega
      · have h2 : 0 < rest.sum := hrest.mpr ⟨y, hy2, hyp⟩
        omega

theorem getD_map_range (k : Nat) (f : Nat → Int) (p : Nat) (d : Int) :
    (((List.range k).map f).getD p d) = if p < k then f p else d := by
  by_cases h : p < k
  · rw [if_pos h, List.getD_eq_getElem?_getD, List.getElem?_map,
      List.getElem?_range h]
    rfl
  · rw [if_neg h, List.getD_eq_getElem?_getD, List.getElem?_map]
    have h2 : (List.range k)[p]? = none := by
      rw [List.getElem?_eq_none]
      simpa using h
    rw [h2]
    rfl

/-- The window sum over the binarised sequence is positive exactly when
some in-range positive entry lies inside the kernel window. -/
theorem windowSum_pos_iff (a : List Int) (m i : Nat) :
    0 < windowSum (binarize a) m i ↔
    ∃ j, j < a.length ∧ 0 < a.getD j 0 ∧ j ≤ i ∧ i < j + m := by
  unfold windowSum
  rw [list_sum_pos_iff]
  · constructor
    · rintro ⟨x, hx, hpos⟩
      obtain ⟨j, hj, rfl⟩ := List.mem_map.mp hx
      rw [List.mem_range, binarize_length] at hj
      by_cases hcond : j ≤ i ∧ i < j + m
      · rw [if_pos hcond, binarize_getD] at hpos
        split at hpos
        · rename_i hc
          exact ⟨j, hc.1, hc.2, hcond.1, hcond.2⟩
        · omega
      · rw [if_neg hcond] at hpos
        omega
    · rintro ⟨j, hj1, hj2, hj3, hj4⟩
      refine ⟨if j ≤ i ∧ i < j + m then (binarize a).getD j 0 else 0,
        List.mem_map.mpr ⟨j, List.mem_range.mpr (by rw [binarize_length]; exact hj1), rfl⟩,
        ?_⟩
      rw [if_pos ⟨hj3, hj4⟩, binarize_getD, if_pos ⟨hj1, hj2⟩]
      omega
  · intro x hx
    obtain ⟨j, hj, rfl⟩ := List.mem_map.mp hx
    split
    · rw [binarize_getD]
      split <;> omega
    · exact le_rfl

/-- Entry `p` of the smoothed sequence, fully characterised by the
convolution window: it is on exactly when some original positive cell
`j` satisfies `j ≤ p + s < j + m` for the centring shift
`s = (min n m - 1) / 2` with kernel size `m = gap_tolerance + 1`. -/
theorem smoothedSeq_getD_eq_one (a : List Int) (g : Int) (hg : 0 < g) (p : Nat) :
    ((smoothedSeq a g).getD p 0 = 1 ↔
      (p < max a.length (g.toNat + 1) ∧
        ∃ j, j < a.length ∧ 0 < a.getD j 0 ∧
          j ≤ p + (min a.length (g.toNat + 1) - 1) / 2 ∧
          p + (min a.length (g.toNat + 1) - 1) / 2 < j + (g.toNat + 1))) := by
  have h1 : smoothedSeq a g =
      (List.range (max a.length (g.toNat + 1))).map
        fun q => if 0 < windowSum (binarize a) (g.toNat + 1)
            (q + (min a.length (g.toNat + 1) - 1) / 2) then 1 else 0 := by
    unfold smoothedSeq convSame
    rw [if_pos hg, List.map_map, binarize_length]
    rfl
  rw [h1, getD_map_range]
  by_cases hp : p < max a.length (g.toNat + 1)
  · rw [if_pos hp]
    rw [← windowSum_pos_iff a (g.toNat + 1)]
    constructor
    · intro h2
      split at h2
      · rename_i hc
        exact ⟨hp, hc⟩
      · omega
    · rintro ⟨-, h2⟩
      rw [if_pos h2]
  · rw [if_neg hp]
    constructor
    · intro h2
      omega
    · rintro ⟨h2, -⟩
      omega

/-- The symmetric-window smoothing the spec describes (refinement
definition following the spec text, for comparison with the code):
position `p` is smoothed-on when some original on cell lies within
distance `⌈gap_tolerance / 2⌉` of `p` on either side. -/
def symWindowOn (a : List Int) (g : Nat) (p : Nat) : Bool :=
  (List.range a.length).any fun j =>
    decide (0 < a.getD j 0) &&
    decide ((j : Int) ≤ (p : Int) + (g + 1) / 2 ∧ (p : Int) ≤ (j : Int) + (g + 1) / 2)

/-- C2 counterexample: with `gap_tolerance = 1` the code's smoothing
window is the one-sided `{p-1, p}`, not a symmetric window: on
`[0,1,0]` position 0 is off for the code although the on cell at index 1
is within any symmetric window of size 2 around it, and the smoothing is
not reversal-symmetric (`[1,0,0]` keeps a length-2 run at the left end
while the mirrored `[0,0,1]` keeps only a single cell). -/
theorem smoothing_window_not_symmetric :
    (smoothedSeq [0, 1, 0] 1).getD 0 0 = 0 ∧
    symWindowOn [0, 1, 0] 1 0 = true ∧
    find_runs_1d [1, 0, 0] 1 = [(0, 2)] ∧
    find_runs_1d [0, 0, 1] 1 = [(2, 3)] := by decide

/-- C2 amended: for `gap_tolerance > 0` and a sequence at least as long
as the kernel, position `p` of the smoothed sequence is on exactly when
some original on cell lies in the backward-skewed window
`[p - ⌈g/2⌉, p + ⌊g/2⌋]`; the window is symmetric only when
`gap_tolerance` is even. -/
theorem smoothing_window_exact (a : List Int) (g : Int) (p : Nat)
    (hg : 0 < g) (hlen : g.toNat + 1 ≤ a.length) (hp : p < a.length) :
    ((smoothedSeq a g).getD p 0 = 1 ↔
      ∃ j, j < a.length ∧ 0 < a.getD j 0 ∧
        j ≤ p + g.toNat / 2 ∧ p + g.toNat / 2 < j + (g.toNat + 1)) := by
  rw [smoothedSeq_getD_eq_one a g hg p]
  have hmax : max a.length (g.toNat + 1) = a.length := by omega
  have hmin : min a.length (g.toNat + 1) = g.toNat + 1 := by omega
  have harith : g.toNat + 1 - 1 = g.toNat := by omega
  rw [hmax, hmin, harith]
  constructor
  · rintro ⟨-, h2⟩
    exact h2
  · intro h2
    exact ⟨hp, h2⟩

/-- Witness for `smoothing_window_exact`: on `[1, 0, 0]` with
`gap_tolerance = 1`, position 1 is smoothed-on because the on cell at
index 0 lies in its window `{0, 1}`. -/
theorem smoothing_window_exact_witness :
    (smoothedSeq [1, 0, 0] 1).getD 1 0 = 1 :=
  (smoothing_window_exact [1, 0, 0] 1 1 (by decide) (by decide) (by decide)).mpr
    ⟨0, by decide, by decide, by decide, by decide⟩

/-- 2-D integer grid: a numpy array of shape `rows × cols`, cell values
read through a total function. -/
structure Grid where
  rows : Nat
  cols : Nat
  val : Nat → Nat → Int

/-- `np.fliplr`: mirror along the vertical axis (reverse every row). -/
def fliplr (G : Grid) : Grid :=
  ⟨G.rows, G.cols, fun i j => G.val i (G.cols - 1 - j)⟩

/-- Length of `np.diag(matrix, k)` for an `rows × cols` matrix. -/
def diagLen (G : Grid) (k : Int) : Nat :=
  if 0 ≤ k then min G.rows (G.cols - k.toNat)
  else min (G.rows - (-k).toNat) G.cols

/-- Local diagonal index mapped back to matrix coordinates, exactly as
the scan loops do: `(idx, idx + k)` for `k ≥ 0`, `(idx - k, idx)` for
`k < 0`. -/
def diagCoord (k : Int) (idx : Nat) : Nat × Nat :=
  if 0 ≤ k then (idx, idx + k.toNat) else (idx + (-k).toNat, idx)

/-- `np.diag(matrix, k)` as a list of cell values. -/
def diagSeq (G : Grid) (k : Int) : List Int :=
  (List.range (diagLen G k)).map fun idx =>
    G.val (diagCoord k idx).1 (diagCoord k idx).2

/-- The diagonal offsets `range(-rows + 1, cols)` scanned by the
detector. -/
def diagOffsets (G : Grid) : List Int :=
  (List.range ((G.rows : Int) + G.cols - 1).toNat).map
    fun t => (t : Int) - G.rows + 1

/-- Row `k` of the grid (`matrix[k, :]`). -/
def rowSeq (G : Grid) (k : Nat) : List Int :=
  (List.range G.cols).map fun j => G.val k j

/-- Column `k` of the grid (`matrix[:, k]`). -/
def colSeq (G : Grid) (k : Nat) : List Int :=
  (List.range G.rows).map fun i => G.val i k

/-- `np.zeros_like(matrix, dtype=bool)`. -/
def zerosMask (r c : Nat) : List (List Bool) :=
  List.replicate r (List.replicate c false)

/-- `mask[i, j] = 1` (out-of-range writes are dropped, matching numpy
only because the scan loops bounds-check before every write). -/
def maskSet (m : List (List Bool)) (i j : Nat) : List (List Bool) :=
  m.set i ((m.getD i []).set j true)

/-- Replay a sequence of writes on a mask. -/
def applyWrites (m : List (List Bool)) (ws : List (Nat × Nat)) : List (List Bool) :=
  ws.foldl (fun acc p => maskSet acc p.1 p.2) m

/-- Read `mask[i][j]`, `false` outside the mask. -/
def maskGet (m : List (List Bool)) (i j : Nat) : Bool :=
  (m.getD i []).getD j false

/-- The write sequence performed by the main-diagonal scan loop of
`detect_diagonal_segments`: for every offset `k`, every run of the
diagonal whose length is at least `min_run`, and every run index, the
bounds-checked mapped coordinate. -/
def diagWrites (G : Grid) (g mr : Int) : List (Nat × Nat) :=
  (diagOffsets G).flatMap fun k =>
    (find_runs_1d (diagSeq G k) g).flatMap fun r =>
      if ((r.2 : Int) - r.1) < mr then []
      else (List.range' r.1 (r.2 - r.1)).filterMap fun idx =>
        if (diagCoord k idx).1 < G.rows ∧ (diagCoord k idx).2 < G.cols then
          some (diagCoord k idx)
        else none

/-- Mask written by one directional (main-diagonal) scan. -/
def diagScanMask (G : Grid) (g mr : Int) : List (List Bool) :=
  applyWrites (zerosMask G.rows G.cols) (diagWrites G g mr)

/-- Pointwise OR of two masks (`mask |= other`). -/
def maskOr (A B : List (List Bool)) : List (List Bool) :=
  A.zipWith (fun ra rb => ra.zipWith (fun u v => u || v) rb) B

/-- `np.fliplr` on a boolean mask. -/
def fliplrMask (m : List (List Bool)) : List (List Bool) :=
  m.map List.reverse

/-- `detect_diagonal_segments`: the main-diagonal scan of the matrix,
OR-combined with the flipped-back main-diagonal scan of the horizontally
flipped matrix (the anti-diagonal direction). -/
def detect_diagonal_segments (G : Grid) (g mr : Int) : List (List Bool) :=
  maskOr (diagScanMask G g mr) (fliplrMask (diagScanMask (fliplr G) g mr))

/-- Write sequence of the horizontal scan loop. -/
def rowWrites (G : Grid) (g mr : Int) : List (Nat × Nat) :=
  (List.range G.rows).flatMap fun k =>
    (find_runs_1d (rowSeq G k) g).flatMap fun r =>
      if ((r.2 : Int) - r.1) < mr then []
      else (List.range' r.1 (r.2 - r.1)).filterMap fun idx =>
        if k < G.rows ∧ idx < G.cols then some (k, idx) else none

/-- Write sequence of the vertical scan loop. -/
def colWrites (G : Grid) (g mr : Int) : List (Nat × Nat) :=
  (List.range G.cols).flatMap fun k =>
    (find_runs_1d (colSeq G k) g).flatMap fun r =>
      if ((r.2 : Int) - r.1) < mr then []
      else (List.range' r.1 (r.2 - r.1)).filterMap fun idx =>
        if idx < G.rows ∧ k < G.cols then some (idx, k) else none

/-- Mask written by the horizontal scan. -/
def horizScanMask (G : Grid) (g mr : Int) : List (List Bool) :=
  applyWrites (zerosMask G.rows G.cols) (rowWrites G g mr)

/-- Mask written by the vertical scan. -/
def vertScanMask (G : Grid) (g mr : Int) : List (List Bool) :=
  applyWrites (zerosMask G.rows G.cols) (colWrites G g mr)

/-- `detect_horizontal_vertical_segments`: the `mask |= vertical_mask`
merge sits inside the innermost write loop in the source, but since
writes only ever set cells and the last merge happens after the last
write, the final mask equals the horizontal mask OR-ed with the full
vertical mask. -/
def detect_horizontal_vertical_segments (G : Grid) (g mr : Int) : List (List Bool) :=
  maskOr (horizScanMask G g mr) (vertScanMask G g mr)

/-- `mask.sum()`: number of `true` cells. -/
def countMask (m : List (List Bool)) : Nat :=
  (m.map fun row => (row.filter id).length).sum

/-- `ulam_goodness`: combined diagonal and horizontal/vertical mask,
population count divided by `rows * rows` (float division modelled as
exact rational division). -/
def ulam_goodness (G : Grid) (g mr : Int) : ℚ :=
  (countMask (maskOr (detect_diagonal_segments G g mr)
      (detect_horizontal_vertical_segments G g mr)) : ℚ) /
    ((G.rows : ℚ) * G.rows)

example :
    countMask (detect_diagonal_segments
      ⟨4, 4, fun i j => if i = j then 1 else 0⟩ 0 4) = 4 := by decide

theorem getD_replicate_elem {α : Type} : ∀ (n : Nat) (x d : α) (i : Nat),
    (List.replicate n x).getD i d = if i < n then x else d := by
  intro n
  induction n with
  | zero => intro x d i; simp
  | succ n ih =>
    intro x d i
    cases i with
    | zero => simp [List.replicate_succ]
    | succ i =>
      rw [List.replicate_succ, List.getD_cons_succ, ih]
      simp [Nat.succ_lt_succ_iff]

theorem getD_set_elem {α : Type} : ∀ (l : List α) (n : Nat) (a : α) (i : Nat) (d : α),
    (l.set n a).getD i d = if n = i ∧ n < l.length then a else l.getD i d := by
  intro l
  induction l with
  | nil => intro n a i d; simp
  | cons x rest ih =>
    intro n a i d
    cases n with
    | zero =>
      cases i with
      | zero => simp
      | succ i => simp
    | succ n =>
      cases i with
      | zero => simp
      | succ i =>
        rw [List.set_cons_succ, List.getD_cons_succ, List.getD_cons_succ, ih]
        by_cases hc : n = i ∧ n < rest.length
        · have hpos : n + 1 = i + 1 ∧ n + 1 < (x :: rest).length := by
            rw [List.length_cons]
            omega
          rw [if_pos hc, if_pos hpos]
        · have hneg : ¬ (n + 1 = i + 1 ∧ n + 1 < (x :: rest).length) := by
            rw [List.length_cons]
            omega
          rw [if_neg hc, if_neg hneg]

theorem maskGet_zeros (r c i j : Nat) : maskGet (zerosMask r c) i j = false := by
  unfold maskGet zerosMask
  rw [getD_replicate_elem]
  split
  · rw [getD_replicate_elem]
    split <;> rfl
  · rfl

theorem maskGet_maskSet (m : List (List Bool)) (i j i2 j2 : Nat) :
    (maskGet (maskSet m i j) i2 j2 = true ↔
      (maskGet m i2 j2 = true ∨
        (i = i2 ∧ j = j2 ∧ i < m.length ∧ j < (m.getD i []).length))) := by
  unfold maskGet maskSet
  rw [getD_set_elem]
  by_cases hc : i = i2 ∧ i < m.length
  · rw [if_pos hc]
    obtain ⟨rfl, hlen⟩ := hc
    rw [getD_set_elem]
    by_cases hc2 : j = j2 ∧ j < (m.getD i []).length
    · rw [if_pos hc2]
      constructor
      · intro _
        exact Or.inr ⟨rfl, hc2.1, hlen, hc2.2⟩
      · intro _
        rfl
    · rw [if_neg hc2]
      constructor
      · exact Or.inl
      · rintro (h | ⟨-, h2, -, h4⟩)
        · exact h
        · exact absurd ⟨h2, h4⟩ hc2
  · rw [if_neg hc]
    constructor
    · exact Or.inl
    · rintro (h | ⟨h1, -, h3, -⟩)
      · exact h
      · exact absurd ⟨h1, h3⟩ hc

theorem length_maskSet (m : List (List Bool)) (i j : Nat) :
    (maskSet m i j).length = m.length := by
  unfold maskSet
  exact List.length_set m _ _

theorem row_length_maskSet (m : List (List Bool)) (i j i2 : Nat) :
    ((maskSet m i j).getD i2 []).length = (m.getD i2 []).length := by
  unfold maskSet
  rw [getD_set_elem]
  split
  · rename_i h
    obtain ⟨rfl, -⟩ := h
    exact List.length_set _ _ _
  · rfl

theorem length_applyWrites : ∀ (ws : List (Nat × Nat)) (m : List (List Bool)),
    (applyWrites m ws).length = m.length := by
  intro ws
  induction ws with
  | nil => intro m; rfl
  | cons p rest ih =>
    intro m
    show (applyWrites (maskSet m p.1 p.2) rest).length = m.length
    rw [ih, length_maskSet]

theorem row_length_applyWrites : ∀ (ws : List (Nat × Nat)) (m : List (List Bool)) (i : Nat),
    ((applyWrites m ws).getD i []).length = (m.getD i []).length := by
  intro ws
  induction ws with
  | nil => intro m i; rfl
  | cons p rest ih =>
    intro m i
    show ((applyWrites (maskSet m p.1 p.2) rest).getD i []).length = _
    rw [ih, row_length_maskSet]

theorem maskGet_applyWrites : ∀ (ws : List (Nat × Nat)) (m : List (List Bool)) (i j : Nat),
    (maskGet (applyWrites m ws) i j = true ↔
      (maskGet m i j = true ∨
        ∃ p ∈ ws, p.1 = i ∧ p.2 = j ∧ p.1 < m.length ∧ p.2 < (m.getD p.1 []).length)) := by
  intro ws
  induction ws with
  | nil =>
    intro m i j
    simp [applyWrites]
  | cons p rest ih =>
    intro m i j
    have hstep : applyWrites m (p :: rest) = applyWrites (maskSet m p.1 p.2) rest := rfl
    rw [hstep, ih (maskSet m p.1 p.2) i j, maskGet_maskSet]
    constructor
    · rintro ((h | ⟨h1, h2, h3, h4⟩) | ⟨q, hq, hq1, hq2, hq3, hq4⟩)
      · exact Or.inl h
      · exact Or.inr ⟨p, List.mem_cons_self p rest, h1, h2, h3, h4⟩
      · rw [length_maskSet] at hq3
        rw [row_length_maskSet] at hq4
        exact Or.inr ⟨q, List.mem_cons_of_mem _ hq, hq1, hq2, hq3, hq4⟩
    · rintro (h | ⟨q, hq, hq1, hq2, hq3, hq4⟩)
      · exact Or.inl (Or.inl h)
      · rcases List.mem_cons.mp hq with rfl | hq5
        · exact Or.inl (Or.inr ⟨hq1, hq2, hq3, hq4⟩)
        · refine Or.inr ⟨q, hq5, hq1, hq2, ?_, ?_⟩
          · rw [length_maskSet]
            exact hq3
          · rw [row_length_maskSet]
            exact hq4

/-- Scan masks: a cell is set exactly when its in-bounds coordinate was
written. -/
theorem maskGet_applyWrites_zeros (r c : Nat) (ws : List (Nat × Nat)) (i j : Nat) :
    (maskGet (applyWrites (zerosMask r c) ws) i j = true ↔
      ((i, j) ∈ ws ∧ i < r ∧ j < c)) := by
  rw [maskGet_applyWrites, maskGet_zeros]
  have hlen : (zerosMask r c).length = r := List.length_replicate r _
  constructor
  · rintro (h | ⟨q, hq, hq1, hq2, hq3, hq4⟩)
    · exact absurd h (by simp)
    · obtain ⟨qi, qj⟩ := q
      dsimp at hq1 hq2 hq3 hq4
      rw [hlen] at hq3
      rw [show (zerosMask r c).getD qi [] = List.replicate c false from by
        unfold zerosMask
        rw [getD_replicate_elem, if_pos hq3], List.length_replicate] at hq4
      rw [hq1] at hq3
      rw [hq2] at hq4
      rw [hq1, hq2] at hq
      exact ⟨hq, hq3, hq4⟩
  · rintro ⟨hmem, hi, hj⟩
    refine Or.inr ⟨(i, j), hmem, rfl, rfl, ?_, ?_⟩
    · rwa [hlen]
    · rw [show (zerosMask r c).getD i [] = List.replicate c false from by
        unfold zerosMask
        rw [getD_replicate_elem, if_pos hi]]
      rwa [List.length_replicate]

theorem getD_maskOr_row : ∀ (A B : List (List Bool)) (i : Nat), A.length = B.length →
    (maskOr A B).getD i [] =
      (A.getD i []).zipWith (fun u v => u || v) (B.getD i []) := by
  intro A
  induction A with
  | nil =>
    intro B i h
    have hB : B = [] := List.length_eq_zero.mp (by simpa using h.symm)
    subst hB
    simp [maskOr]
  | cons a A ih =>
    intro B i h
    cases B with
    | nil => simp at h
    | cons b B =>
      cases i with
      | zero => simp [maskOr]
      | succ i =>
        have hstep : maskOr (a :: A) (b :: B) =
            (a.zipWith (fun u v => u || v) b) :: maskOr A B := rfl
        rw [hstep]
        simp only [List.getD_cons_succ]
        exact ih B i (by simpa using h)

theorem getD_zipWith_or : ∀ (ra rb : List Bool) (j : Nat), ra.length = rb.length →
    (ra.zipWith (fun u v => u || v) rb).getD j false =
      ((ra.getD j false) || (rb.getD j false)) := by
  intro ra
  induction ra with
  | nil =>
    intro rb j h
    have hB : rb = [] := List.length_eq_zero.mp (by simpa using h.symm)
    subst hB
    simp
  | cons u ra ih =>
    intro rb j h
    cases rb with
    | nil => simp at h
    | cons v rb =>
      cases j with
      | zero => simp
      | succ j =>
        simp only [List.zipWith_cons_cons, List.getD_cons_succ]
        exact ih rb j (by simpa using h)

theorem maskGet_maskOr (A B : List (List Bool)) (hlen : A.length = B.length)
    (hrows : ∀ i, (A.getD i []).length = (B.getD i []).length) (i j : Nat) :
    maskGet (maskOr A B) i j = (maskGet A i j || maskGet B i j) := by
  unfold maskGet
  rw [getD_maskOr_row A B i hlen, getD_zipWith_or _ _ j (hrows i)]

theorem length_scanMask (r c : Nat) (ws : List (Nat × Nat)) :
    (applyWrites (zerosMask r c) ws).length = r := by
  rw [length_applyWrites]
  exact List.length_replicate r _

theorem row_length_scanMask (r c : Nat) (ws : List (Nat × Nat)) (i : Nat) :
    ((applyWrites (zerosMask r c) ws).getD i []).length = if i < r then c else 0 := by
  rw [row_length_applyWrites]
  unfold zerosMask
  rw [getD_replicate_elem]
  split
  · exact List.length_replicate c _
  · rfl

theorem getD_fliplrMask : ∀ (m : List (List Bool)) (i : Nat),
    (fliplrMask m).getD i [] = (m.getD i []).reverse := by
  intro m
  induction m with
  | nil => intro i; simp [fliplrMask]
  | cons row m ih =>
    intro i
    cases i with
    | zero => rfl
    | succ i =>
      have hstep : fliplrMask (row :: m) = row.reverse :: fliplrMask m := rfl
      rw [hstep]
      simp only [List.getD_cons_succ]
      exact ih i

theorem fliplrMask_fliplrMask (m : List (List Bool)) : fliplrMask (fliplrMask m) = m := by
  unfold fliplrMask
  rw [List.map_map]
  simp

theorem zipWith_reverse_eq {α β γ : Type} (f : α → β → γ) :
    ∀ (l1 : List α) (l2 : List β), l1.length = l2.length →
    (List.zipWith f l1 l2).reverse = List.zipWith f l1.reverse l2.reverse := by
  intro l1
  induction l1 with
  | nil =>
    intro l2 h
    have hB : l2 = [] := List.length_eq_zero.mp (by simpa using h.symm)
    subst hB
    simp
  | cons a l1 ih =>
    intro l2 h
    cases l2 with
    | nil => simp at h
    | cons b l2 =>
      have h2 : l1.length = l2.length := by simpa using h
      simp only [List.zipWith_cons_cons, List.reverse_cons, ih l2 h2]
      rw [List.zipWith_append _ _ _ _ _ (by simpa using h2)]
      simp

theorem fliplrMask_maskOr : ∀ (X Y : List (List Bool)), X.length = Y.length →
    (∀ i, (X.getD i []).length = (Y.getD i []).length) →
    fliplrMask (maskOr X Y) = maskOr (fliplrMask X) (fliplrMask Y) := by
  intro X
  induction X with
  | nil =>
    intro Y h _
    have hB : Y = [] := List.length_eq_zero.mp (by simpa using h.symm)
    subst hB
    rfl
  | cons x X ih =>
    intro Y hlen hrows
    cases Y with
    | nil => simp at hlen
    | cons y Y =>
      have h0 : x.length = y.length := by simpa using hrows 0
      show ((x.zipWith (fun u v => u || v) y).reverse) :: fliplrMask (maskOr X Y) =
        (x.reverse.zipWith (fun u v => u || v) y.reverse) ::
          maskOr (fliplrMask X) (fliplrMask Y)
      congr 1
      · exact zipWith_reverse_eq _ x y h0
      · exact ih Y (by simpa using hlen) fun i => by simpa using hrows (i + 1)

theorem maskOr_comm (A B : List (List Bool)) : maskOr A B = maskOr B A := by
  unfold maskOr
  apply List.zipWith_comm_of_comm
  intro ra rb
  apply List.zipWith_comm_of_comm
  intro u v
  exact Bool.or_comm u v

theorem diagCoord_in_bounds (G : Grid) (k : Int) (idx : Nat) (h : idx < diagLen G k) :
    (diagCoord k idx).1 < G.rows ∧ (diagCoord k idx).2 < G.cols := by
  unfold diagLen at h
  unfold diagCoord
  by_cases hk : 0 ≤ k
  · rw [if_pos hk] at h ⊢
    dsimp
    omega
  · rw [if_neg hk] at h ⊢
    dsimp
    omega

theorem diagSeq_congr (G1 G2 : Grid) (hr : G1.rows = G2.rows) (hc : G1.cols = G2.cols)
    (hv : ∀ i j, i < G1.rows → j < G1.cols → G1.val i j = G2.val i j) (k : Int) :
    diagSeq G1 k = diagSeq G2 k := by
  unfold diagSeq
  have hlen : diagLen G1 k = diagLen G2 k := by
    unfold diagLen
    rw [hr, hc]
  rw [← hlen]
  apply List.map_congr_left
  intro idx hidx
  rw [List.mem_range] at hidx
  obtain ⟨h1, h2⟩ := diagCoord_in_bounds G1 k idx hidx
  exact hv _ _ h1 h2

theorem diagScanMask_congr (G1 G2 : Grid) (g mr : Int) (hr : G1.rows = G2.rows)
    (hc : G1.cols = G2.cols)
    (hv : ∀ i j, i < G1.rows → j < G1.cols → G1.val i j = G2.val i j) :
    diagScanMask G1 g mr = diagScanMask G2 g mr := by
  have hseq : ∀ k, diagSeq G1 k = diagSeq G2 k := diagSeq_congr G1 G2 hr hc hv
  unfold diagScanMask diagWrites diagOffsets
  simp only [hseq, hr, hc]

theorem length_diagScanMask (G : Grid) (g mr : Int) :
    (diagScanMask G g mr).length = G.rows :=
  length_scanMask G.rows G.cols (diagWrites G g mr)

theorem row_length_diagScanMask (G : Grid) (g mr : Int) (i : Nat) :
    ((diagScanMask G g mr).getD i []).length = if i < G.rows then G.cols else 0 :=
  row_length_scanMask G.rows G.cols (diagWrites G g mr) i

/-- C9: detecting diagonal segments commutes with a horizontal mirror of
the grid: the mask of the flipped grid is the flipped mask of the grid. -/
theorem detect_diagonal_fliplr (G : Grid) (g mr : Int) :
    detect_diagonal_segments (fliplr G) g mr =
      fliplrMask (detect_diagonal_segments G g mr) := by
  unfold detect_diagonal_segments
  have hFF : diagScanMask (fliplr (fliplr G)) g mr = diagScanMask G g mr := by
    apply diagScanMask_congr
    · rfl
    · rfl
    · intro i j hi hj
      have hj2 : j < G.cols := hj
      show G.val i (G.cols - 1 - (G.cols - 1 - j)) = G.val i j
      congr 1
      omega
  rw [hFF]
  rw [fliplrMask_maskOr _ _ ?hlen ?hrows]
  · rw [fliplrMask_fliplrMask]
    exact maskOr_comm _ _
  case hlen =>
    show (diagScanMask G g mr).length = (fliplrMask (diagScanMask (fliplr G) g mr)).length
    unfold fliplrMask
    rw [List.length_map, length_diagScanMask, length_diagScanMask]
    rfl
  case hrows =>
    intro i
    rw [getD_fliplrMask, List.length_reverse, row_length_diagScanMask,
      row_length_diagScanMask]
    rfl

/-- The combined mask whose population count the score divides by
`rows²`. -/
def goodnessMask (G : Grid) (g mr : Int) : List (List Bool) :=
  maskOr (detect_diagonal_segments G g mr) (detect_horizontal_vertical_segments G g mr)

theorem ulam_goodness_eq_count_div (G : Grid) (g mr : Int) :
    ulam_goodness G g mr = (countMask (goodnessMask G g mr) : ℚ) / ((G.rows : ℚ) * G.rows) :=
  rfl

/-- C7: the score is the combined-mask population count divided by the
square of the row count — the column count never enters the denominator —
and it is not clamped to `[0, 1]`: a 1×8 all-ones grid scores `8`. -/
theorem goodness_row_squared_denominator (G : Grid) (g mr : Int) :
    (ulam_goodness G g mr =
      (countMask (goodnessMask G g mr) : ℚ) / ((G.rows : ℚ) ^ 2)) ∧
    ulam_goodness ⟨1, 8, fun _ _ => 1⟩ 1 5 = 8 := by
  constructor
  · rw [ulam_goodness_eq_count_div, sq]
  · have h1 : countMask (goodnessMask ⟨1, 8, fun _ _ => 1⟩ 1 5) = 8 := by decide
    rw [ulam_goodness_eq_count_div, h1]
    norm_num

/-- A run reported by `find_runs_1d` is always nonempty. -/
theorem find_runs_pos (a : List Int) (g : Int) (r : Nat × Nat)
    (hr : r ∈ find_runs_1d a g) : r.1 < r.2 := by
  obtain ⟨p, q⟩ := r
  rw [find_runs_1d_mem] at hr
  exact hr.1

theorem flatMap_congr {α β : Type} : ∀ (l : List α) (f f2 : α → List β),
    (∀ x ∈ l, f x = f2 x) → l.flatMap f = l.flatMap f2 := by
  intro l
  induction l with
  | nil => intro f f2 _; rfl
  | cons a l ih =>
    intro f f2 h
    have hstep : ∀ f3 : α → List β, (a :: l).flatMap f3 = f3 a ++ l.flatMap f3 :=
      fun f3 => List.flatMap_cons a l f3
    rw [hstep f, hstep f2, h a (List.mem_cons_self a l),
      ih f f2 fun x hx => h x (List.mem_cons_of_mem _ hx)]

theorem diagWrites_mr_le_one (G : Grid) (g mr : Int) (hmr : mr ≤ 1) :
    diagWrites G g mr = diagWrites G g 1 := by
  unfold diagWrites
  apply flatMap_congr
  intro k _
  apply flatMap_congr
  intro r hr
  have hpos := find_runs_pos _ g r hr
  rw [if_neg (by omega), if_neg (by omega)]

/-- C6 counterexample: invalid parameters do not raise any error — a
negative `gap_tolerance` silently behaves like `0`, and a non-positive
`min_run` silently admits every run; both calls return ordinary values. -/
theorem no_validation_cex :
    find_runs_1d [1, 0, 1] (-1) = [(0, 1), (2, 3)] ∧
    countMask (detect_diagonal_segments
      ⟨3, 3, fun i j => if i = j then 1 else 0⟩ (-2) 0) = 3 :=
  ⟨by decide, by decide⟩

/-- C6 amended: no parameter validation is performed anywhere — every
`gap_tolerance ≤ 0` is silently treated as "no smoothing" (identical to
`0`), and every `min_run ≤ 1` keeps all runs (identical to `1`), rather
than failing with an `InvalidConfiguration` error. -/
theorem no_validation_amended :
    (∀ (a : List Int) (g : Int), g ≤ 0 → find_runs_1d a g = find_runs_1d a 0) ∧
    (∀ (G : Grid) (g mr : Int), mr ≤ 1 →
      detect_diagonal_segments G g mr = detect_diagonal_segments G g 1) := by
  constructor
  · intro a g hg
    unfold find_runs_1d
    rw [show smoothedSeq a g = smoothedSeq a 0 from by
      unfold smoothedSeq
      rw [if_neg (by omega), if_neg (by omega)]]
  · intro G g mr hmr
    unfold detect_diagonal_segments diagScanMask
    rw [diagWrites_mr_le_one G g mr hmr, diagWrites_mr_le_one (fliplr G) g mr hmr]

/-- Witness for `no_validation_amended` at gap_tolerance `-1`. -/
theorem no_validation_amended_witness :
    find_runs_1d [1, 0, 1] (-1) = find_runs_1d [1, 0, 1] 0 :=
  no_validation_amended.1 [1, 0, 1] (-1) (by decide)

/-- The 10×10 grids of the end-to-end scenario: a single unbroken
stretch of six on cells on the main diagonal, starting at `(s, s)`. -/
def diagStretchGrid (s : Nat) : Grid :=
  ⟨10, 10, fun i j => if i = j ∧ s ≤ i ∧ i < s + 6 then 1 else 0⟩

/-- C1 counterexample: for the stretch starting at `(0, 0)` the mask has
7 true cells, not 6 (the backward smoothing window extends the run one
cell past its right end), and the score is `0.07`, not `0.06`. -/
theorem diag_stretch_cex :
    countMask (detect_diagonal_segments (diagStretchGrid 0) 1 5) = 7 ∧
    ulam_goodness (diagStretchGrid 0) 1 5 = 7 / 100 := by
  constructor
  · decide
  · have h1 : countMask (goodnessMask (diagStretchGrid 0) 1 5) = 7 := by decide
    rw [ulam_goodness_eq_count_div, h1]
    norm_num [diagStretchGrid]

/-- C1 amended: for the six-cell diagonal stretch starting at `(s, s)`
on a 10×10 grid with `gap_tolerance = 1`, `min_run = 5`, the detected
mask consists of main-diagonal cells only, with exactly 7 cells when the
stretch ends before the grid corner (`s ≤ 3`, the smoothing window
appends one extra cell after the stretch) and exactly 6 when it ends at
the corner (`s = 4`); the score is `0.07` resp. `0.06`. -/
theorem diag_stretch_detection (s : Nat) (hs : s < 5) :
    countMask (detect_diagonal_segments (diagStretchGrid s) 1 5) =
      (if s ≤ 3 then 7 else 6) ∧
    (∀ i, i < 10 → ∀ j, j < 10 →
      maskGet (detect_diagonal_segments (diagStretchGrid s) 1 5) i j = true → i = j) ∧
    ulam_goodness (diagStretchGrid s) 1 5 =
      ((if s ≤ 3 then 7 else 6 : Nat) : ℚ) / 100 := by
  interval_cases s
  · refine ⟨by decide, by decide, ?_⟩
    have h1 : countMask (goodnessMask (diagStretchGrid 0) 1 5) = 7 := by decide
    rw [ulam_goodness_eq_count_div, h1]
    norm_num [diagStretchGrid]
  · refine ⟨by decide, by decide, ?_⟩
    have h1 : countMask (goodnessMask (diagStretchGrid 1) 1 5) = 7 := by decide
    rw [ulam_goodness_eq_count_div, h1]
    norm_num [diagStretchGrid]
  · refine ⟨by decide, by decide, ?_⟩
    have h1 : countMask (goodnessMask (diagStretchGrid 2) 1 5) = 7 := by decide
    rw [ulam_goodness_eq_count_div, h1]
    norm_num [diagStretchGrid]
  · refine ⟨by decide, by decide, ?_⟩
    have h1 : countMask (goodnessMask (diagStretchGrid 3) 1 5) = 7 := by decide
    rw [ulam_goodness_eq_count_div, h1]
    norm_num [diagStretchGrid]
  · refine ⟨by decide, by decide, ?_⟩
    have h1 : countMask (goodnessMask (diagStretchGrid 4) 1 5) = 6 := by decide
    rw [ulam_goodness_eq_count_div, h1]
    norm_num [diagStretchGrid]

/-- Witness for `diag_stretch_detection` at `s = 4` (the one stretch for
which the original 6-cell claim holds). -/
theorem diag_stretch_detection_witness :
    countMask (detect_diagonal_segments (diagStretchGrid 4) 1 5) =
      (if 4 ≤ 3 then 7 else 6) ∧
    (∀ i, i < 10 → ∀ j, j < 10 →
      maskGet (detect_diagonal_segments (diagStretchGrid 4) 1 5) i j = true → i = j) ∧
    ulam_goodness (diagStretchGrid 4) 1 5 =
      ((if 4 ≤ 3 then 7 else 6 : Nat) : ℚ) / 100 :=
  diag_stretch_detection 4 (by decide)

theorem getD_reverse_lt {α : Type} (l : List α) (j : Nat) (d : α) (h : j < l.length) :
    l.reverse.getD j d = l.getD (l.length - 1 - j) d := by
  rw [List.getD_eq_getElem?_getD, List.getD_eq_getElem?_getD, List.getElem?_reverse h]

theorem getD_of_length_le {α : Type} (l : List α) (j : Nat) (d : α)
    (h : l.length ≤ j) : l.getD j d = d := by
  rw [List.getD_eq_getElem?_getD]
  have h2 : l[j]? = none := by
    rw [List.getElem?_eq_none]
    exact h
  rw [h2]
  rfl

/-- Reading a flipped scan mask: the cell is set exactly when the
mirrored column of an in-bounds cell was written. -/
theorem maskGet_fliplrMask_scan (r c : Nat) (ws : List (Nat × Nat)) (i j : Nat) :
    (maskGet (fliplrMask (applyWrites (zerosMask r c) ws)) i j = true ↔
      (i < r ∧ j < c ∧ (i, c - 1 - j) ∈ ws)) := by
  unfold maskGet
  rw [getD_fliplrMask]
  by_cases hi : i < r
  · have hrow : ((applyWrites (zerosMask r c) ws).getD i []).length = c := by
      rw [row_length_scanMask, if_pos hi]
    by_cases hj : j < c
    · rw [getD_reverse_lt _ _ _ (by rw [hrow]; exact hj), hrow]
      have hiff := maskGet_applyWrites_zeros r c ws i (c - 1 - j)
      unfold maskGet at hiff
      rw [hiff]
      constructor
      · rintro ⟨hm, -, -⟩
        exact ⟨hi, hj, hm⟩
      · rintro ⟨-, -, hm⟩
        exact ⟨hm, hi, by omega⟩
    · rw [getD_of_length_le _ _ _ (by rw [List.length_reverse, hrow]; omega)]
      constructor
      · intro h
        exact absurd h (by simp)
      · rintro ⟨-, hj2, -⟩
        exact absurd hj2 hj
  · have hrow0 : ((applyWrites (zerosMask r c) ws).getD i []).length = 0 := by
      rw [row_length_scanMask, if_neg hi]
    rw [getD_of_length_le _ _ _ (by rw [List.length_reverse, hrow0]; omega)]
    constructor
    · intro h
      exact absurd h (by simp)
    · rintro ⟨hi2, -, -⟩
      exact absurd hi2 hi

/-- Membership in the main-diagonal write sequence, fully unfolded: a
coordinate is written exactly when some diagonal run passing the
`min_run` filter (measured on the smoothed run, `end - start`) covers
it, with the defensive bounds check. -/
theorem mem_diagWrites (G : Grid) (g mr : Int) (i j : Nat) :
    ((i, j) ∈ diagWrites G g mr ↔
      ∃ k ∈ diagOffsets G, ∃ r ∈ find_runs_1d (diagSeq G k) g,
        mr ≤ (r.2 : Int) - r.1 ∧ ∃ idx, r.1 ≤ idx ∧ idx < r.2 ∧
          diagCoord k idx = (i, j) ∧ i < G.rows ∧ j < G.cols) := by
  unfold diagWrites
  rw [List.mem_flatMap]
  constructor
  · rintro ⟨k, hk, hin⟩
    rw [List.mem_flatMap] at hin
    obtain ⟨r, hr, hin2⟩ := hin
    by_cases hmr : ((r.2 : Int) - r.1) < mr
    · rw [if_pos hmr] at hin2
      simp at hin2
    · rw [if_neg hmr] at hin2
      rw [List.mem_filterMap] at hin2
      obtain ⟨idx, hidx, hsome⟩ := hin2
      rw [List.mem_range'_1] at hidx
      split at hsome
      · rename_i hb
        have hco : diagCoord k idx = (i, j) := Option.some.inj hsome
        refine ⟨k, hk, r, hr, by omega, idx, hidx.1, by omega, hco, ?_, ?_⟩
        · have hb1 := hb.1
          rw [hco] at hb1
          exact hb1
        · have hb2 := hb.2
          rw [hco] at hb2
          exact hb2
      · simp at hsome
  · rintro ⟨k, hk, r, hr, hmr, idx, h1, h2, hcoord, hi, hj⟩
    refine ⟨k, hk, ?_⟩
    rw [List.mem_flatMap]
    refine ⟨r, hr, ?_⟩
    rw [if_neg (by omega)]
    rw [List.mem_filterMap]
    refine ⟨idx, List.mem_range'_1.mpr ⟨h1, by omega⟩, ?_⟩
    rw [hcoord]
    rw [if_pos ⟨hi, hj⟩]

theorem mem_diagWrites_bounds (G : Grid) (g mr : Int) (p : Nat × Nat)
    (h : p ∈ diagWrites G g mr) : p.1 < G.rows ∧ p.2 < G.cols := by
  obtain ⟨pi, pj⟩ := p
  rw [mem_diagWrites] at h
  obtain ⟨-, -, -, -, -, -, -, -, -, hi, hj⟩ := h
  exact ⟨hi, hj⟩

/-- Reading the diagonal-detection mask: a cell is on exactly when it
was written by the main-diagonal scan or its mirrored column was written
by the main-diagonal scan of the flipped grid. -/
theorem maskGet_detect_diag (G : Grid) (g mr : Int) (i j : Nat) :
    (maskGet (detect_diagonal_segments G g mr) i j = true ↔
      ((i, j) ∈ diagWrites G g mr ∨
        (i < G.rows ∧ j < G.cols ∧ (i, G.cols - 1 - j) ∈ diagWrites (fliplr G) g mr))) := by
  unfold detect_diagonal_segments
  rw [maskGet_maskOr _ _ ?hl ?hr i j]
  case hl =>
    unfold fliplrMask
    rw [List.length_map, length_diagScanMask, length_diagScanMask]
    rfl
  case hr =>
    intro i2
    rw [getD_fliplrMask, List.length_reverse, row_length_diagScanMask,
      row_length_diagScanMask]
    rfl
  rw [Bool.or_eq_true]
  unfold diagScanMask
  rw [maskGet_applyWrites_zeros, maskGet_fliplrMask_scan]
  constructor
  · rintro (⟨hm, -, -⟩ | ⟨hi, hj, hm⟩)
    · exact Or.inl hm
    · exact Or.inr ⟨hi, hj, hm⟩
  · rintro (hm | ⟨hi, hj, hm⟩)
    · have hb := mem_diagWrites_bounds G g mr _ hm
      exact Or.inl ⟨hm, hb.1, hb.2⟩
    · exact Or.inr ⟨hi, hj, hm⟩

/-- A 7×7 grid whose only on cells are a 4-cell stretch on the main
diagonal. -/
def shortStretchGrid : Grid :=
  ⟨7, 7, fun i j => if i = j ∧ i < 4 then 1 else 0⟩

/-- C3 counterexample: the `min_run` filter is applied to the smoothed
run, not to the run length in original indices: with `gap_tolerance = 1`
a stretch of only 4 on cells is smoothed to the run `[0, 5)` of length
5, passes the `min_run = 5` filter, and contributes 5 mask cells instead
of the zero cells the claim requires. -/
theorem min_run_original_indices_cex :
    find_runs_1d [1, 1, 1, 1, 0, 0, 0] 1 = [(0, 5)] ∧
    countMask (detect_diagonal_segments shortStretchGrid 1 5) = 5 :=
  ⟨by decide, by decide⟩

/-- C3 amended: a cell of the diagonal-detection mask is set exactly
when it is covered (within grid bounds) by a run whose length measured
in the smoothed, gap-bridged sequence — `end - start` over smoothed
indices, not original on cells — is at least `min_run`, in one of the
two scan directions. -/
theorem min_run_filter_smoothed (G : Grid) (g mr : Int) (i j : Nat) :
    (maskGet (detect_diagonal_segments G g mr) i j = true ↔
      ((∃ k ∈ diagOffsets G, ∃ r ∈ find_runs_1d (diagSeq G k) g,
          mr ≤ (r.2 : Int) - r.1 ∧ ∃ idx, r.1 ≤ idx ∧ idx < r.2 ∧
            diagCoord k idx = (i, j) ∧ i < G.rows ∧ j < G.cols) ∨
        (i < G.rows ∧ j < G.cols ∧
          ∃ k ∈ diagOffsets (fliplr G), ∃ r ∈ find_runs_1d (diagSeq (fliplr G) k) g,
            mr ≤ (r.2 : Int) - r.1 ∧ ∃ idx, r.1 ≤ idx ∧ idx < r.2 ∧
              diagCoord k idx = (i, G.cols - 1 - j) ∧ i < (fliplr G).rows ∧
              G.cols - 1 - j < (fliplr G).cols))) := by
  rw [maskGet_detect_diag, mem_diagWrites, mem_diagWrites]

/-- The all-zero square grid. -/
def zeroGrid (n : Nat) : Grid := ⟨n, n, fun _ _ => 0⟩

/-- The all-ones square grid. -/
def onesGrid (n : Nat) : Grid := ⟨n, n, fun _ _ => 1⟩

theorem getD_zero_of_all : ∀ (b : List Int), (∀ y ∈ b, y = 0) → ∀ j, b.getD j 0 = 0 := by
  intro b
  induction b with
  | nil => intro _ j; simp
  | cons x rest ih =>
    intro h j
    cases j with
    | zero => exact h x (List.mem_cons_self x rest)
    | succ j =>
      rw [List.getD_cons_succ]
      exact ih (fun y hy => h y (List.mem_cons_of_mem _ hy)) j

theorem smoothedSeq_of_nonpos (a : List Int) (g : Int) (h : ∀ x ∈ a, x ≤ 0) :
    ∀ x ∈ smoothedSeq a g, x = 0 := by
  intro x hx
  have hbin : ∀ y ∈ binarize a, y = 0 := by
    intro y hy
    obtain ⟨z, hz, hzy⟩ := List.mem_map.mp hy
    have hz0 := h z hz
    rw [← hzy, if_neg (by omega)]
  unfold smoothedSeq at hx
  by_cases hg : 0 < g
  · rw [if_pos hg] at hx
    obtain ⟨y, hy, hxy⟩ := List.mem_map.mp hx
    have hy0 : y = 0 := by
      unfold convSame at hy
      obtain ⟨p, -, hp⟩ := List.mem_map.mp hy
      rw [← hp]
      unfold windowSum
      apply List.sum_eq_zero
      intro z hz
      obtain ⟨q, -, hq⟩ := List.mem_map.mp hz
      rw [← hq]
      split
      · exact getD_zero_of_all _ hbin q
      · rfl
    rw [← hxy, hy0]
    norm_num
  · rw [if_neg hg] at hx
    exact hbin x hx

theorem find_runs_of_nonpos (a : List Int) (g : Int) (h : ∀ x ∈ a, x ≤ 0) :
    find_runs_1d a g = [] := by
  rw [find_runs_eq_runsAcc]
  refine runsAcc_of_nonpos _ ?_ 0
  intro x hx
  rw [smoothedSeq_of_nonpos a g h x hx]
  omega

theorem flatMap_eq_nil {α β : Type} : ∀ (l : List α) (f : α → List β),
    (∀ x ∈ l, f x = []) → l.flatMap f = [] := by
  intro l
  induction l with
  | nil => intro f _; rfl
  | cons a l ih =>
    intro f h
    rw [List.flatMap_cons, h a (List.mem_cons_self a l), List.nil_append]
    exact ih f fun x hx => h x (List.mem_cons_of_mem _ hx)

theorem diagWrites_of_nonpos (G : Grid) (g mr : Int)
    (hval : ∀ i j, G.val i j ≤ 0) : diagWrites G g mr = [] := by
  unfold diagWrites
  apply flatMap_eq_nil
  intro k _
  rw [find_runs_of_nonpos _ g ?_]
  · rfl
  · intro x hx
    obtain ⟨idx, -, hidx⟩ := List.mem_map.mp hx
    rw [← hidx]
    exact hval _ _

theorem rowWrites_of_nonpos (G : Grid) (g mr : Int)
    (hval : ∀ i j, G.val i j ≤ 0) : rowWrites G g mr = [] := by
  unfold rowWrites
  apply flatMap_eq_nil
  intro k _
  rw [find_runs_of_nonpos _ g ?_]
  · rfl
  · intro x hx
    obtain ⟨idx, -, hidx⟩ := List.mem_map.mp hx
    rw [← hidx]
    exact hval _ _

theorem colWrites_of_nonpos (G : Grid) (g mr : Int)
    (hval : ∀ i j, G.val i j ≤ 0) : colWrites G g mr = [] := by
  unfold colWrites
  apply flatMap_eq_nil
  intro k _
  rw [find_runs_of_nonpos _ g ?_]
  · rfl
  · intro x hx
    obtain ⟨idx, -, hidx⟩ := List.mem_map.mp hx
    rw [← hidx]
    exact hval _ _

theorem zipWith_replicate_same {α β γ : Type} (f : α → β → γ) :
    ∀ (n : Nat) (a : α) (b : β),
    List.zipWith f (List.replicate n a) (List.replicate n b) =
      List.replicate n (f a b) := by
  intro n
  induction n with
  | zero => intro a b; rfl
  | succ n ih =>
    intro a b
    rw [List.replicate_succ, List.replicate_succ, List.zipWith_cons_cons, ih,
      List.replicate_succ]

theorem fliplrMask_zeros (r c : Nat) : fliplrMask (zerosMask r c) = zerosMask r c := by
  unfold fliplrMask zerosMask
  rw [List.map_replicate, List.reverse_replicate]

theorem maskOr_zeros (r c : Nat) : maskOr (zerosMask r c) (zerosMask r c) = zerosMask r c := by
  unfold maskOr zerosMask
  rw [zipWith_replicate_same, zipWith_replicate_same]
  rfl

theorem countMask_zeros (r c : Nat) : countMask (zerosMask r c) = 0 := by
  unfold countMask zerosMask
  rw [List.map_replicate]
  have hf : (List.replicate c false).filter id = [] := by
    rw [List.filter_eq_nil_iff]
    intro a ha
    rw [List.eq_of_mem_replicate ha]
    simp
  rw [hf]
  simp

theorem detect_diag_zeroGrid (n : Nat) (g mr : Int) :
    detect_diagonal_segments (zeroGrid n) g mr = zerosMask n n := by
  unfold detect_diagonal_segments diagScanMask
  rw [diagWrites_of_nonpos (zeroGrid n) g mr (fun _ _ => le_refl 0),
    diagWrites_of_nonpos (fliplr (zeroGrid n)) g mr (fun _ _ => le_refl 0)]
  show maskOr (zerosMask n n) (fliplrMask (zerosMask n n)) = zerosMask n n
  rw [fliplrMask_zeros, maskOr_zeros]

theorem detect_hv_zeroGrid (n : Nat) (g mr : Int) :
    detect_horizontal_vertical_segments (zeroGrid n) g mr = zerosMask n n := by
  unfold detect_horizontal_vertical_segments horizScanMask vertScanMask
  rw [rowWrites_of_nonpos (zeroGrid n) g mr (fun _ _ => le_refl 0),
    colWrites_of_nonpos (zeroGrid n) g mr (fun _ _ => le_refl 0)]
  show maskOr (zerosMask n n) (zerosMask n n) = zerosMask n n
  rw [maskOr_zeros]

theorem map_const_replicate {α β : Type} (b : β) : ∀ (l : List α),
    l.map (fun _ => b) = List.replicate l.length b := by
  intro l
  induction l with
  | nil => rfl
  | cons a l ih => rw [List.map_cons, ih, List.length_cons, List.replicate_succ]

theorem rowSeq_onesGrid (n k : Nat) : rowSeq (onesGrid n) k = List.replicate n 1 := by
  show (List.range n).map (fun _ => (1 : Int)) = List.replicate n 1
  rw [map_const_replicate, List.length_range]

theorem binarize_replicate_one (n : Nat) :
    binarize (List.replicate n 1) = List.replicate n 1 := by
  unfold binarize
  rw [List.map_replicate]
  norm_num

theorem windowSum_replicate_one_pos (n m : Nat) (hn : 1 ≤ n) (hm : 1 ≤ m) (p : Nat)
    (hp : p < max n m) :
    0 < windowSum (List.replicate n 1) m (p + (min n m - 1) / 2) := by
  rw [← binarize_replicate_one, windowSum_pos_iff, List.length_replicate]
  refine ⟨min (p + (min n m - 1) / 2) (n - 1), by omega, ?_, by omega, by omega⟩
  rw [getD_replicate_elem, if_pos (by omega)]
  norm_num

theorem smoothedSeq_replicate_one (n : Nat) (g : Int) (hn : 1 ≤ n) :
    smoothedSeq (List.replicate n 1) g =
      List.replicate (if 0 < g then max n (g.toNat + 1) else n) 1 := by
  by_cases hg : 0 < g
  · rw [if_pos hg]
    unfold smoothedSeq
    rw [if_pos hg, binarize_replicate_one]
    unfold convSame
    rw [List.map_map]
    rw [List.map_congr_left (g := fun _ => (1 : Int)) ?_]
    · rw [map_const_replicate, List.length_range, List.length_replicate]
    · intro p hp
      rw [List.mem_range, List.length_replicate] at hp
      simp only [Function.comp_apply]
      rw [List.length_replicate]
      rw [if_pos (windowSum_replicate_one_pos n (g.toNat + 1) hn (by omega) p hp)]
  · rw [if_neg hg]
    unfold smoothedSeq
    rw [if_neg hg, binarize_replicate_one]

theorem runsAcc_replicate_one_open : ∀ (L : Nat) (s i : Nat),
    runsAcc (List.replicate L 1) (some s) i = [(s, i + L)] := by
  intro L
  induction L with
  | zero => intro s i; simp [runsAcc]
  | succ L ih =>
    intro s i
    rw [List.replicate_succ]
    have hstep : runsAcc ((1 : Int) :: List.replicate L 1) (some s) i =
        runsAcc (List.replicate L 1) (some s) (i + 1) := by
      simp [runsAcc]
    rw [hstep, ih]
    have harith : i + 1 + L = i + (L + 1) := by omega
    rw [harith]

theorem runsAcc_replicate_one (L : Nat) (hL : 1 ≤ L) :
    runsAcc (List.replicate L 1) none 0 = [(0, L)] := by
  obtain ⟨K, rfl⟩ : ∃ K, L = K + 1 := ⟨L - 1, by omega⟩
  rw [List.replicate_succ]
  have hstep : runsAcc ((1 : Int) :: List.replicate K 1) none 0 =
      runsAcc (List.replicate K 1) (some 0) 1 := by
    simp [runsAcc]
  rw [hstep, runsAcc_replicate_one_open]
  rw [Nat.add_comm]

theorem find_runs_replicate_one (n : Nat) (g : Int) (hn : 1 ≤ n) :
    find_runs_1d (List.replicate n 1) g =
      [(0, if 0 < g then max n (g.toNat + 1) else n)] := by
  rw [find_runs_eq_runsAcc, smoothedSeq_replicate_one n g hn,
    runsAcc_replicate_one _ (by split <;> omega)]

theorem mem_rowWrites_onesGrid (n : Nat) (g mr : Int) (hn : 1 ≤ n)
    (hmr : mr ≤ (n : Int)) (i j : Nat) (hi : i < n) (hj : j < n) :
    (i, j) ∈ rowWrites (onesGrid n) g mr := by
  unfold rowWrites
  rw [List.mem_flatMap]
  refine ⟨i, List.mem_range.mpr hi, ?_⟩
  rw [List.mem_flatMap]
  refine ⟨(0, if 0 < g then max n (g.toNat + 1) else n), ?_, ?_⟩
  · rw [show rowSeq (onesGrid n) i = List.replicate n 1 from rowSeq_onesGrid n i,
      find_runs_replicate_one n g hn]
    exact List.mem_singleton.mpr rfl
  · rw [if_neg ?_]
    · rw [List.mem_filterMap]
      refine ⟨j, List.mem_range'_1.mpr ⟨by omega, ?_⟩, ?_⟩
      · split <;> omega
      · rw [if_pos ⟨hi, hj⟩]
    · split <;> omega

theorem length_maskOr (A B : List (List Bool)) :
    (maskOr A B).length = min A.length B.length := by
  unfold maskOr
  exact List.length_zipWith _ _ _

theorem length_detect_diag (G : Grid) (g mr : Int) :
    (detect_diagonal_segments G g mr).length = G.rows := by
  unfold detect_diagonal_segments
  rw [length_maskOr]
  unfold fliplrMask
  rw [List.length_map, length_diagScanMask, length_diagScanMask]
  show min G.rows (fliplr G).rows = G.rows
  rw [show (fliplr G).rows = G.rows from rfl, Nat.min_self]

theorem row_length_detect_diag (G : Grid) (g mr : Int) (i : Nat) :
    ((detect_diagonal_segments G g mr).getD i []).length =
      if i < G.rows then G.cols else 0 := by
  unfold detect_diagonal_segments
  rw [getD_maskOr_row _ _ i ?_]
  · rw [List.length_zipWith, row_length_diagScanMask, getD_fliplrMask,
      List.length_reverse, row_length_diagScanMask]
    show min _ (if i < (fliplr G).rows then (fliplr G).cols else 0) = _
    rw [show (fliplr G).rows = G.rows from rfl,
      show (fliplr G).cols = G.cols from rfl, Nat.min_self]
  · unfold fliplrMask
    rw [List.length_map, length_diagScanMask, length_diagScanMask]
    rfl

theorem length_detect_hv (G : Grid) (g mr : Int) :
    (detect_horizontal_vertical_segments G g mr).length = G.rows := by
  unfold detect_horizontal_vertical_segments horizScanMask vertScanMask
  rw [length_maskOr, length_scanMask, length_scanMask, Nat.min_self]

theorem row_length_detect_hv (G : Grid) (g mr : Int) (i : Nat) :
    ((detect_horizontal_vertical_segments G g mr).getD i []).length =
      if i < G.rows then G.cols else 0 := by
  unfold detect_horizontal_vertical_segments horizScanMask vertScanMask
  rw [getD_maskOr_row _ _ i (by rw [length_scanMask, length_scanMask]),
    List.length_zipWith, row_length_scanMask, row_length_scanMask, Nat.min_self]

theorem length_goodnessMask (G : Grid) (g mr : Int) :
    (goodnessMask G g mr).length = G.rows := by
  unfold goodnessMask
  rw [length_maskOr, length_detect_diag, length_detect_hv, Nat.min_self]

theorem row_length_goodnessMask (G : Grid) (g mr : Int) (i : Nat) :
    ((goodnessMask G g mr).getD i []).length = if i < G.rows then G.cols else 0 := by
  unfold goodnessMask
  rw [getD_maskOr_row _ _ i (by rw [length_detect_diag, length_detect_hv]),
    List.length_zipWith, row_length_detect_diag, row_length_detect_hv, Nat.min_self]

theorem maskGet_goodness_onesGrid (n : Nat) (g mr : Int) (hn : 1 ≤ n)
    (hmr : mr ≤ (n : Int)) (i j : Nat) (hi : i < n) (hj : j < n) :
    maskGet (goodnessMask (onesGrid n) g mr) i j = true := by
  unfold goodnessMask
  rw [maskGet_maskOr _ _ (by rw [length_detect_diag, length_detect_hv])
    (fun i2 => by rw [row_length_detect_diag, row_length_detect_hv]) i j]
  have hHV : maskGet (detect_horizontal_vertical_segments (onesGrid n) g mr) i j
      = true := by
    unfold detect_horizontal_vertical_segments horizScanMask vertScanMask
    rw [maskGet_maskOr _ _ (by rw [length_scanMask, length_scanMask])
      (fun i2 => by rw [row_length_scanMask, row_length_scanMask]) i j]
    have hH : maskGet (applyWrites (zerosMask (onesGrid n).rows (onesGrid n).cols)
        (rowWrites (onesGrid n) g mr)) i j = true :=
      (maskGet_applyWrites_zeros _ _ _ i j).mpr
        ⟨mem_rowWrites_onesGrid n g mr hn hmr i j hi hj, hi, hj⟩
    rw [hH]
    rfl
  rw [hHV, Bool.or_true]

theorem filter_id_all_true (row : List Bool) (h : ∀ x ∈ row, x = true) :
    (row.filter id).length = row.length := by
  rw [List.filter_eq_self.mpr fun a ha => by rw [h a ha]; rfl]

theorem countMask_all_true : ∀ (m : List (List Bool)),
    (∀ i, i < m.length → ∀ j, j < (m.getD i []).length → maskGet m i j = true) →
    countMask m = (m.map fun row => row.length).sum := by
  intro m
  induction m with
  | nil => intro _; rfl
  | cons row m ih =>
    intro h
    have hrow : ∀ x ∈ row, x = true := by
      intro x hx
      obtain ⟨j, hjlen, hxj⟩ := List.mem_iff_getElem.mp hx
      have hj2 := h 0 (by simp) j (by rw [List.getD_cons_zero]; exact hjlen)
      unfold maskGet at hj2
      rw [List.getD_cons_zero, List.getD_eq_getElem?_getD,
        List.getElem?_eq_getElem hjlen] at hj2
      simp only [Option.getD_some] at hj2
      rw [← hxj]
      exact hj2
    have hshift : ∀ i, i < m.length → ∀ j, j < (m.getD i []).length →
        maskGet m i j = true := by
      intro i hi j hj
      have h2 := h (i + 1) (by rw [List.length_cons]; omega) j
        (by rwa [List.getD_cons_succ])
      unfold maskGet at h2 ⊢
      rwa [List.getD_cons_succ] at h2
    rw [show countMask (row :: m) = (row.filter id).length + countMask m from by
      unfold countMask
      rw [List.map_cons, List.sum_cons]]
    rw [List.map_cons, List.sum_cons, filter_id_all_true row hrow, ih hshift]

theorem map_length_replicate : ∀ (m : List (List Bool)) (c : Nat),
    (∀ i, i < m.length → (m.getD i []).length = c) →
    m.map (fun row => row.length) = List.replicate m.length c := by
  intro m
  induction m with
  | nil => intro c _; rfl
  | cons row m ih =>
    intro c h
    rw [List.map_cons, List.length_cons, List.replicate_succ]
    congr 1
    · have h0 := h 0 (by simp)
      rwa [List.getD_cons_zero] at h0
    · refine ih c fun i hi => ?_
      have h2 := h (i + 1) (by rw [List.length_cons]; omega)
      rwa [List.getD_cons_succ] at h2

theorem countMask_goodness_onesGrid (n : Nat) (g mr : Int) (hn : 1 ≤ n)
    (hmr : mr ≤ (n : Int)) :
    countMask (goodnessMask (onesGrid n) g mr) = n * n := by
  rw [countMask_all_true _ ?_]
  · rw [map_length_replicate _ n ?_]
    · rw [length_goodnessMask]
      show (List.replicate n n).sum = n * n
      rw [List.sum_replicate, smul_eq_mul]
    · intro i hi
      rw [length_goodnessMask] at hi
      rw [row_length_goodnessMask, if_pos hi]
      rfl
  · intro i hi j hj
    rw [length_goodnessMask] at hi
    rw [row_length_goodnessMask, if_pos hi] at hj
    exact maskGet_goodness_onesGrid n g mr hn hmr i j hi hj

/-- C8: on a nonempty square all-zero grid the score is exactly 0, and
on an all-ones square grid of size `n` with `min_run ≤ n` the score is
exactly 1 (every row is one run covering the whole row, so the combined
mask covers the grid). -/
theorem goodness_zero_and_ones (n : Nat) (g mr : Int) (hn : 1 ≤ n) :
    ulam_goodness (zeroGrid n) g mr = 0 ∧
    (mr ≤ (n : Int) → ulam_goodness (onesGrid n) g mr = 1) := by
  constructor
  · rw [ulam_goodness_eq_count_div]
    rw [show goodnessMask (zeroGrid n) g mr = zerosMask n n from by
      unfold goodnessMask
      rw [detect_diag_zeroGrid, detect_hv_zeroGrid, maskOr_zeros]]
    rw [countMask_zeros]
    norm_num
  · intro hmr
    rw [ulam_goodness_eq_count_div, countMask_goodness_onesGrid n g mr hn hmr]
    show ((n * n : Nat) : ℚ) / ((n : ℚ) * n) = 1
    have hpos : (0 : ℚ) < (n : ℚ) := by
      have h1 : (0 : Nat) < n := by omega
      exact_mod_cast h1
    rw [Nat.cast_mul]
    rw [div_self (by positivity)]

/-- Witness for `goodness_zero_and_ones` at `n = 3`, with
`gap_tolerance = 1` and `min_run` 5 resp. 2. -/
theorem goodness_zero_and_ones_witness :
    ulam_goodness (zeroGrid 3) 1 5 = 0 ∧ ulam_goodness (onesGrid 3) 1 2 = 1 :=
  ⟨(goodness_zero_and_ones 3 1 5 (by decide)).1,
    (goodness_zero_and_ones 3 1 2 (by decide)).2 (by decide)⟩

/-- Trial-division loop of `is_prime` from `primes.py`: test divisors
`i` and `i + 2`, stepping by 6, while `i * i ≤ n`. -/
def trialDiv (n : Int) (i : Nat) : Bool :=
  if h : ((i : Int) * i) ≤ n then
    if n % (i : Int) = 0 ∨ n % ((i : Int) + 2) = 0 then false
    else trialDiv n (i + 6)
  else true
termination_by n.toNat + 1 - i * i
decreasing_by
  have hexp : (i + 6) * (i + 6) = i * i + (12 * i + 36) := by ring
  have hcast : ((i * i : Nat) : Int) = (i : Int) * i := by push_cast; ring
  have hnn : (0 : Int) ≤ (i : Int) * i := by positivity
  omega

/-- `is_prime` from `primes.py`. -/
def is_prime (n : Int) : Bool :=
  if n ≤ 1 then false
  else if n ≤ 3 then true
  else if n % 2 = 0 ∨ n % 3 = 0 then false
  else trialDiv n 5

/-- `set_if_inside` from `ulam_spiral.py`: write `value` at `(x, y)` if
the coordinate is inside the bounds, otherwise leave the matrix
unchanged (the boolean the Python function returns is ignored by every
caller). -/
def set_if_inside (rows cols : Nat) (M : Nat → Nat → Int) (x y : Int)
    (v : Int) : Nat → Nat → Int :=
  if 0 ≤ x ∧ x < (rows : Int) ∧ 0 ≤ y ∧ y < (cols : Int) then
    fun i j => if i = x.toNat ∧ j = y.toNat then v else M i j
  else M

/-- Walk state of the spiral fill: current coordinates, current value,
and the matrix contents. -/
structure SpState where
  x : Int
  y : Int
  cv : Int
  M : Nat → Nat → Int

/-- One iteration of an inner `for` loop of `fill_primes`: move by `d`,
mark the (new) cell when the current value is prime, advance the
value. -/
def spiralStep (rows cols : Nat) (d : Int × Int) (s : SpState) : SpState :=
  ⟨s.x + d.1, s.y + d.2, s.cv + 1,
    if is_prime s.cv then set_if_inside rows cols s.M (s.x + d.1) (s.y + d.2) 1
    else s.M⟩

/-- A whole inner `for` loop: `m` steps in direction `d`. -/
def leg (rows cols : Nat) (d : Int × Int) (m : Nat) (s : SpState) : SpState :=
  (List.range m).foldl (fun st _ => spiralStep rows cols d st) s

theorem leg_cv (rows cols : Nat) (d : Int × Int) : ∀ (m : Nat) (s : SpState),
    (leg rows cols d m s).cv = s.cv + m := by
  intro m
  induction m with
  | zero => intro s; simp [leg]
  | succ m ih =>
    intro s
    unfold leg
    rw [List.range_succ, List.foldl_append]
    show (spiralStep rows cols d (leg rows cols d m s)).cv = s.cv + (m + 1)
    unfold spiralStep
    dsimp
    rw [ih s]
    ring

/-- The `while current_value < max_value` loop of `fill_primes`: grow
the step length, walk the four legs (`+x`, `+y` with length
`step_length + 1`, then `-x`, `-y` with length `step_length + 2`),
repeat. -/
def spiralLoop (rows cols : Nat) (maxv : Int) (sl : Nat) (s : SpState) : SpState :=
  if s.cv < maxv then
    spiralLoop rows cols maxv (sl + 2)
      (leg rows cols (0, -1) (sl + 2)
        (leg rows cols (-1, 0) (sl + 2)
          (leg rows cols (0, 1) (sl + 1)
            (leg rows cols (1, 0) (sl + 1) s))))
  else s
termination_by (maxv - s.cv).toNat
decreasing_by
  rw [leg_cv, leg_cv, leg_cv, leg_cv]
  omega

/-- `fill_primes` from `ulam_spiral.py`: start at the centre
`(rows / 2, rows / 2)`, mark it with 2, then spiral outwards writing 1
at prime values until `rows * cols + offset` is reached; returns the
final matrix contents. -/
def fill_primes (rows cols : Nat) (M0 : Nat → Nat → Int) (offset : Int) :
    Nat → Nat → Int :=
  (spiralLoop rows cols ((rows * cols : Nat) + offset) 0
    ⟨(rows / 2 : Nat), (rows / 2 : Nat), offset,
      set_if_inside rows cols M0 (rows / 2 : Nat) (rows / 2 : Nat) 2⟩).M

/-- Every cell holds 0, 1 or 2. -/
def cellVals (M : Nat → Nat → Int) : Prop :=
  ∀ i j, M i j = 0 ∨ M i j = 1 ∨ M i j = 2

theorem set_if_inside_preserves (rows cols : Nat) (M : Nat → Nat → Int)
    (x y v : Int) (hM : cellVals M) (hv : v = 1 ∨ v = 2) :
    cellVals (set_if_inside rows cols M x y v) := by
  intro i j
  unfold set_if_inside
  split
  · dsimp
    split
    · rcases hv with rfl | rfl
      · exact Or.inr (Or.inl rfl)
      · exact Or.inr (Or.inr rfl)
    · exact hM i j
  · exact hM i j

theorem spiralStep_preserves (rows cols : Nat) (d : Int × Int) (s : SpState)
    (h : cellVals s.M) : cellVals (spiralStep rows cols d s).M := by
  unfold spiralStep
  dsimp
  split
  · exact set_if_inside_preserves _ _ _ _ _ _ h (Or.inl rfl)
  · exact h

theorem leg_preserves (rows cols : Nat) (d : Int × Int) : ∀ (m : Nat) (s : SpState),
    cellVals s.M → cellVals (leg rows cols d m s).M := by
  intro m
  induction m with
  | zero => intro s h; exact h
  | succ m ih =>
    intro s h
    unfold leg
    rw [List.range_succ, List.foldl_append]
    show cellVals (spiralStep rows cols d (leg rows cols d m s)).M
    exact spiralStep_preserves _ _ _ _ (ih s h)

theorem spiralLoop_preserves (rows cols : Nat) (maxv : Int) :
    ∀ (k : Nat) (sl : Nat) (s : SpState), (maxv - s.cv).toNat = k →
      cellVals s.M → cellVals (spiralLoop rows cols maxv sl s).M := by
  intro k
  induction k using Nat.strong_induction_on with
  | _ k ih =>
    intro sl s hk h
    unfold spiralLoop
    split
    · rename_i hlt
      refine ih (maxv - (leg rows cols (0, -1) (sl + 2)
          (leg rows cols (-1, 0) (sl + 2)
            (leg rows cols (0, 1) (sl + 1)
              (leg rows cols (1, 0) (sl + 1) s)))).cv).toNat ?_ (sl + 2) _ rfl ?_
      · rw [leg_cv, leg_cv, leg_cv, leg_cv]
        omega
      · exact leg_preserves _ _ _ _ _ (leg_preserves _ _ _ _ _
          (leg_preserves _ _ _ _ _ (leg_preserves _ _ _ _ _ h)))
    · exact h

/-- C10: starting from an all-zero square matrix, `fill_primes` only
ever writes the values 1 (primes) and 2 (centre marker), and every
out-of-bounds write is silently dropped by `set_if_inside`, so every
cell of the result is 0, 1 or 2, for every size and every offset. -/
theorem fill_primes_values (n : Nat) (offset : Int) (i j : Nat) :
    fill_primes n n (fun _ _ => 0) offset i j = 0 ∨
    fill_primes n n (fun _ _ => 0) offset i j = 1 ∨
    fill_primes n n (fun _ _ => 0) offset i j = 2 := by
  have h0 : cellVals (set_if_inside n n (fun _ _ => 0) (n / 2 : Nat) (n / 2 : Nat) 2) :=
    set_if_inside_preserves _ _ _ _ _ _ (fun _ _ => Or.inl rfl) (Or.inr rfl)
  exact spiralLoop_preserves n n _ _ 0 _ rfl h0 i j

end Ulam
